import Mathlib

/-!
# A verification development for the `flow` lexer (`lexer.go`)

The Go program scans a string with a `bytes.Buffer`: `Tokenize` reads one rune,
skips `' '` and `';'`, returns brackets and operators as one-character tokens,
reads identifiers and numbers as maximal runs, and returns any other rune as a
one-character token.

The embedding is shallow.  A Go `string` is a sequence of bytes, so the input is a
`List Byte`; the part of `bytes.Buffer` the program uses (`ReadRune`, `UnreadRune`,
`WriteRune`, `String`) is a state record with explicit state passing, and the
UTF-8 decoding done by `ReadRune` and the encoding done by `string(ch)` follow
`unicode/utf8`.  Runes are natural numbers.  Loops and the self-recursion of
`Tokenize` are driven by a step budget; the functions used in the theorems supply
a budget computed from the unread length, and the termination theorems show that
this budget never runs out and that a larger one changes nothing.  The goroutine
stack, which bounds the depth of the self-recursion, is modelled separately by
`Lexer.TokenizeStack`.
-/

namespace Flow

/-! ## Bytes, runes and UTF-8 -/

/-- One byte of a Go string. -/
abbrev Byte := Fin 256

/-- Go's conversion `byte(n)`: the low eight bits. -/
def byte (n : Nat) : Byte := ⟨n % 256, Nat.mod_lt n (by decide)⟩

/-- The rune `utf8.RuneError`, U+FFFD. -/
def RuneError : Nat := 0xFFFD

/-- The width `first[p0] & 7` that `unicode/utf8` assigns to a leading byte in
`0xC2..0xF4`: two, three or four bytes. -/
def runeWidth (p0 : Byte) : Nat :=
  if p0.val < 0xE0 then 2 else if p0.val < 0xF0 then 3 else 4

/-- The lower end of `acceptRanges` for the second byte after the leading byte `p0`. -/
def acceptLo (p0 : Byte) : Nat :=
  if p0.val = 0xE0 then 0xA0 else if p0.val = 0xF0 then 0x90 else 0x80

/-- The upper end of `acceptRanges` for the second byte after the leading byte `p0`. -/
def acceptHi (p0 : Byte) : Nat :=
  if p0.val = 0xED then 0x9F else if p0.val = 0xF4 then 0x8F else 0xBF

/-- Go's `utf8.DecodeRune`: the first rune of `p` and its width in bytes.  An
ill-formed or truncated sequence gives `(RuneError, 1)`; the empty slice gives
`(RuneError, 0)`.  The table `first` of the library is written out as comparisons
(`0x00..0x7F` ASCII, `0x80..0xC1` and `0xF5..0xFF` invalid), masks as remainders
and shifts as products. -/
def decodeRune (p : List Byte) : Nat × Nat :=
  match p with
  | [] => (RuneError, 0)
  | p0 :: t =>
    if p0.val < 0x80 then (p0.val, 1)
    else if p0.val < 0xC2 ∨ 0xF4 < p0.val then (RuneError, 1)
    else if t.length + 1 < runeWidth p0 then (RuneError, 1)
    else
      match t with
      | [] => (RuneError, 1)
      | b1 :: t1 =>
        if b1.val < acceptLo p0 ∨ acceptHi p0 < b1.val then (RuneError, 1)
        else if runeWidth p0 ≤ 2 then (p0.val % 32 * 64 + b1.val % 64, 2)
        else
          match t1 with
          | [] => (RuneError, 1)
          | b2 :: t2 =>
            if b2.val < 0x80 ∨ 0xBF < b2.val then (RuneError, 1)
            else if runeWidth p0 ≤ 3 then
              (p0.val % 16 * 4096 + b1.val % 64 * 64 + b2.val % 64, 3)
            else
              match t2 with
              | [] => (RuneError, 1)
              | b3 :: _ =>
                if b3.val < 0x80 ∨ 0xBF < b3.val then (RuneError, 1)
                else
                  (p0.val % 8 * 262144 + b1.val % 64 * 4096 + b2.val % 64 * 64
                    + b3.val % 64, 4)

/-- Go's `utf8.AppendRune` on an empty slice, which is also the conversion
`string(r)` of a rune: the UTF-8 encoding of `r`, and the encoding of U+FFFD for
a surrogate or a value above U+10FFFF. -/
def encodeRune (r : Nat) : List Byte :=
  if r < 0x80 then [byte r]
  else if r < 0x800 then [byte (0xC0 + r / 64), byte (0x80 + r % 64)]
  else if 0x10FFFF < r ∨ (0xD800 ≤ r ∧ r ≤ 0xDFFF) then [0xEF, 0xBF, 0xBD]
  else if r < 0x10000 then
    [byte (0xE0 + r / 4096), byte (0x80 + r / 64 % 64), byte (0x80 + r % 64)]
  else
    [byte (0xF0 + r / 262144), byte (0x80 + r / 4096 % 64), byte (0x80 + r / 64 % 64),
      byte (0x80 + r % 64)]

/-- The bytes of a string literal, as the Go compiler stores it (UTF-8). -/
def str (s : String) : List Byte := s.toList.flatMap (fun c => encodeRune c.toNat)

/-! ## `bytes.Buffer` -/

/-- The fields of `bytes.Buffer`: the contents, the read offset, and `lastRead`,
which is `0` (`opInvalid`) or the width of the rune just read (`opReadRune1..4`). -/
structure Buffer where
  buf : List Byte
  off : Nat
  lastRead : Nat
deriving DecidableEq, Repr

namespace Buffer

/-- The function `bytes.NewBufferString`. -/
def NewBufferString (s : List Byte) : Buffer := ⟨s, 0, 0⟩

/-- The unread portion `b.buf[b.off:]`. -/
def unread (b : Buffer) : List Byte := b.buf.drop b.off

/-- The method `Buffer.Len`: the number of unread bytes. -/
def Len (b : Buffer) : Nat := b.buf.length - b.off

/-- The method `Buffer.Reset`. -/
def Reset (_b : Buffer) : Buffer := ⟨[], 0, 0⟩

/-- The method `Buffer.ReadRune`.  The first component is `none` when Go returns
the error `io.EOF`, and `some (r, size)` otherwise. -/
def ReadRune (b : Buffer) : Option (Nat × Nat) × Buffer :=
  match b.buf.drop b.off with
  | [] => (none, b.Reset)
  | c :: rest =>
    if c.val < 0x80 then (some (c.val, 1), ⟨b.buf, b.off + 1, 1⟩)
    else
      let rn := decodeRune (c :: rest)
      (some rn, ⟨b.buf, b.off + rn.2, rn.2⟩)

/-- The method `Buffer.UnreadRune`.  The first component is `false` when Go
returns an error (the previous operation was not a successful `ReadRune`). -/
def UnreadRune (b : Buffer) : Bool × Buffer :=
  if b.lastRead = 0 then (false, b)
  else (true, ⟨b.buf, if b.lastRead ≤ b.off then b.off - b.lastRead else b.off, 0⟩)

end Buffer

/-- The method `Buffer.WriteRune` on the local output buffer of `readIdentifier`
and `readNumber`, which is only ever written and then read whole by `String`. -/
def WriteRune (buffer : List Byte) (r : Nat) : List Byte := buffer ++ encodeRune r

/-- Go's `strconv.Atoi` for a 64-bit `int`: an optional sign, then one or more
decimal digits, and a range check; `none` is a non-nil error. -/
def Atoi (s : List Byte) : Option Int :=
  let neg := s.head? = some 0x2D
  let ds := if s.head? = some 0x2B ∨ s.head? = some 0x2D then s.tail else s
  if ds = [] ∨ ¬ ds.all (fun d => 0x30 ≤ d.val ∧ d.val ≤ 0x39) then none
  else
    let n : Nat := ds.foldl (fun a d => 10 * a + (d.val - 0x30)) 0
    if neg then (if n ≤ 2 ^ 63 then some (-(n : Int)) else none)
    else (if n < 2 ^ 63 then some (n : Int) else none)

/-! ## The lexer -/

/-- The type `Token` is a Go string. -/
abbrev Token := List Byte

def MathOp : Token := str "+-*/"
def Identifier : Token := str "ID"
def Number : Token := str "NUM"
def OpenBrac : Token := str "\x7b"
def CloseBrac : Token := str "\x7d"
def LeftPar : Token := str "("
def RightPar : Token := str ")"

/-- Lexer tokenizes an input string. -/
structure Lexer where
  input : Buffer
deriving DecidableEq, Repr

def NewLexer (input : List Byte) : Lexer := ⟨Buffer.NewBufferString input⟩

/-- Checks if the character is a letter or a beginning of an identifier:
`'a'..'z'`, `'A'..'Z'` or `'$'`. -/
def is_letter (ch : Nat) : Bool :=
  (0x61 ≤ ch && ch ≤ 0x7A) || (0x41 ≤ ch && ch ≤ 0x5A) || ch == 0x24

/-- Checks if the character is a digit: `'0'..'9'`. -/
def is_digit (ch : Nat) : Bool :=
  0x30 ≤ ch && ch ≤ 0x39

/-- The `for` loop of `readIdentifier`; `input` is `lex.input`, `buffer` the local
output buffer.  `none` only when the step budget is used up. -/
def readIdentifierLoop : Nat → Buffer → List Byte → Option (List Byte × Buffer)
  | 0, _, _ => none
  | fuel + 1, input, buffer =>
    match input.ReadRune with
    | (none, input1) => some (buffer, input1)
    | (some (ch, _), input1) =>
      if !is_letter ch && !is_digit ch then
        some (buffer, input1.UnreadRune.2)
      else
        readIdentifierLoop fuel input1 (WriteRune buffer ch)

/-- The method `readIdentifier` reads an identifier from the input buffer. -/
def Lexer.readIdentifier (lex : Lexer) : Option (Token × Lexer) :=
  match readIdentifierLoop (lex.input.Len + 1) lex.input [] with
  | none => none
  | some (buffer, input1) => some (buffer, ⟨input1⟩)

/-- The `for` loop of `readNumber`. -/
def readNumberLoop : Nat → Buffer → List Byte → Option (List Byte × Buffer)
  | 0, _, _ => none
  | fuel + 1, input, buffer =>
    match input.ReadRune with
    | (none, input1) => some (buffer, input1)
    | (some (ch, _), input1) =>
      if !is_digit ch then
        some (buffer, input1.UnreadRune.2)
      else
        readNumberLoop fuel input1 (WriteRune buffer ch)

/-- The method `readNumber` reads a number from the input buffer. -/
def Lexer.readNumber (lex : Lexer) : Option (Token × Lexer) :=
  match readNumberLoop (lex.input.Len + 1) lex.input [] with
  | none => none
  | some (buffer, input1) =>
    let numberStr := buffer
    if (Atoi numberStr).isSome then some (numberStr, ⟨input1⟩)
    else some (buffer, ⟨input1⟩)

/-- The method `Tokenize` with a budget for its self-recursion on separators.
It returns the next token and the lexer after the call; the empty token means
that nothing is left.  This is what a call computes when the goroutine stack has
room for it; `Lexer.TokenizeStack` below is the same method on a bounded stack. -/
def Lexer.TokenizeFuel : Nat → Lexer → Option (Token × Lexer)
  | 0, _ => none
  | fuel + 1, lex =>
    match lex.input.ReadRune with
    | (none, input1) => some ([], ⟨input1⟩)
    | (some (ch, _), input1) =>
      if ch = 0x20 then Lexer.TokenizeFuel fuel ⟨input1⟩        -- ' '
      else if ch = 0x3B then Lexer.TokenizeFuel fuel ⟨input1⟩   -- ';'
      else if ch = 0x28 then some (LeftPar, ⟨input1⟩)            -- '('
      else if ch = 0x29 then some (RightPar, ⟨input1⟩)           -- ')'
      else if ch = 0x7B then some (OpenBrac, ⟨input1⟩)           -- '{'
      else if ch = 0x7D then some (CloseBrac, ⟨input1⟩)          -- '}'
      else if ch = 0x2B then some (encodeRune ch, ⟨input1⟩)      -- '+'
      else if ch = 0x2D then some (encodeRune ch, ⟨input1⟩)      -- '-'
      else if ch = 0x2A then some (encodeRune ch, ⟨input1⟩)      -- '*'
      else if ch = 0x2F then some (encodeRune ch, ⟨input1⟩)      -- '/'
      else if is_letter ch then
        Lexer.readIdentifier ⟨input1.UnreadRune.2⟩
      else if is_digit ch then
        Lexer.readNumber ⟨input1.UnreadRune.2⟩
      else some (encodeRune ch, ⟨input1⟩)

/-- The method `Tokenize`: the next token, or the empty string if none is left. -/
def Lexer.Tokenize (lex : Lexer) : Option (Token × Lexer) :=
  Lexer.TokenizeFuel (lex.input.Len + 1) lex

/-- The `for` loop of `main`: call `Tokenize` until it returns the empty token,
appending every other token to `tokens`. -/
def scanLoop : Nat → Lexer → List Token → Option (List Token)
  | 0, _, _ => none
  | fuel + 1, lexer, tokens =>
    match lexer.Tokenize with
    | none => none
    | some (token, lexer1) =>
      if token = [] then some tokens
      else scanLoop fuel lexer1 (tokens ++ [token])

/-- A full scan of `input`, as `main` does it: `NewLexer`, then the loop. -/
def scan (input : List Byte) : Option (List Token) :=
  scanLoop (input.length + 1) (NewLexer input) []

/-- The tokens `main` collects from its sample input. -/
def main : Option (List Token) := scan (str "$test_var + $varTest * 10;")

/-! ## Auxiliary definitions for the proofs

A scan seen from the unread bytes alone, the record of a scan used by the
reconstruction property, and a few predicates on bytes and runes. -/

/-- A separator byte: `' '` or `';'`. -/
def isSep (c : Byte) : Bool := c.val == 0x20 || c.val == 0x3B

/-- A byte that continues an identifier: a letter, `'$'` or a digit. -/
def isIdent (c : Byte) : Bool := is_letter c.val || is_digit c.val

/-- A digit byte. -/
def isDig (c : Byte) : Bool := is_digit c.val

/-- The token and the unread rest when the first unread byte `c` is not a
separator, as a function of the unread bytes `c :: rest`. -/
def lexOne (c : Byte) (rest : List Byte) : Token × List Byte :=
  if is_letter c.val then ((c :: rest).takeWhile isIdent, (c :: rest).dropWhile isIdent)
  else if is_digit c.val then ((c :: rest).takeWhile isDig, (c :: rest).dropWhile isDig)
  else (encodeRune (decodeRune (c :: rest)).1, (c :: rest).drop (decodeRune (c :: rest)).2)

/-- The token and the unread rest after one `Tokenize` call, as a function of the
unread bytes before the call. -/
def nextToken : List Byte → Token × List Byte
  | [] => ([], [])
  | c :: rest => if isSep c then nextToken rest else lexOne c rest

/-- The tokens of a full scan, as a function of the input bytes. -/
def tokens (s : List Byte) : List Token :=
  if (nextToken s).1 = [] then []
  else if _h : (nextToken s).2.length < s.length then (nextToken s).1 :: tokens (nextToken s).2
  else []
termination_by s.length

/-- A map on bytes that sends separators to separators and changes nothing else. -/
def SepMap (f : Byte → Byte) : Prop :=
  ∀ c : Byte, (isSep c = true → isSep (f c) = true) ∧ (isSep c = false → f c = c)

/-- A structural or operator byte: one of `( ) { } + - * /`. -/
def isStructOrOp (c : Byte) : Bool :=
  c.val == 0x28 || c.val == 0x29 || c.val == 0x7B || c.val == 0x7D
    || c.val == 0x2B || c.val == 0x2D || c.val == 0x2A || c.val == 0x2F

/-- A Unicode scalar value: a code point up to U+10FFFF that is not a surrogate. -/
def validRune (r : Nat) : Bool := r < 0xD800 || (0xE000 ≤ r && r ≤ 0x10FFFF)

/-- The string `string([]rune(s))`: every rune of `s`, as `ReadRune` delivers it,
encoded again; `skip` counts the bytes still belonging to the rune before.  A byte
that is not part of a well-formed sequence comes back as the three bytes of
U+FFFD. -/
def reencodeSkip : Nat → List Byte → List Byte
  | _, [] => []
  | skip + 1, _ :: rest => reencodeSkip skip rest
  | 0, c :: rest =>
    encodeRune (decodeRune (c :: rest)).1 ++ reencodeSkip ((decodeRune (c :: rest)).2 - 1) rest

/-- The string `string([]rune(s))`. -/
def reencode (s : List Byte) : List Byte := reencodeSkip 0 s

/-- Go's `utf8.RuneCount`: the number of runes of `s`, an ill-formed byte counting
as one rune; `skip` counts the bytes still belonging to the rune before. -/
def runeCountSkip : Nat → List Byte → Nat
  | _, [] => 0
  | skip + 1, _ :: rest => runeCountSkip skip rest
  | 0, c :: rest => 1 + runeCountSkip ((decodeRune (c :: rest)).2 - 1) rest

/-- Go's `utf8.RuneCount`. -/
def RuneCount (s : List Byte) : Nat := runeCountSkip 0 s

/-- One entry of the record of a scan: a discarded separator character, or the
text of an emitted token. -/
inductive Piece where
  | sep (ch : Nat)
  | tok (t : Token)
deriving DecidableEq, Repr

/-- The text of a record entry. -/
def Piece.text : Piece → List Byte
  | Piece.sep ch => encodeRune ch
  | Piece.tok t => t

/-- The token of a record entry, if it is one. -/
def Piece.token? : Piece → Option Token
  | Piece.sep _ => none
  | Piece.tok t => some t

/-- The method `Tokenize` (as `Lexer.TokenizeFuel`) that also keeps the record:
each separator it discards is appended to `record`. -/
def Lexer.TokenizeRecFuel : Nat → Lexer → List Piece → Option (Token × Lexer × List Piece)
  | 0, _, _ => none
  | fuel + 1, lex, record =>
    match lex.input.ReadRune with
    | (none, input1) => some ([], ⟨input1⟩, record)
    | (some (ch, _), input1) =>
      if ch = 0x20 then Lexer.TokenizeRecFuel fuel ⟨input1⟩ (record ++ [Piece.sep ch])
      else if ch = 0x3B then Lexer.TokenizeRecFuel fuel ⟨input1⟩ (record ++ [Piece.sep ch])
      else if ch = 0x28 then some (LeftPar, ⟨input1⟩, record)
      else if ch = 0x29 then some (RightPar, ⟨input1⟩, record)
      else if ch = 0x7B then some (OpenBrac, ⟨input1⟩, record)
      else if ch = 0x7D then some (CloseBrac, ⟨input1⟩, record)
      else if ch = 0x2B then some (encodeRune ch, ⟨input1⟩, record)
      else if ch = 0x2D then some (encodeRune ch, ⟨input1⟩, record)
      else if ch = 0x2A then some (encodeRune ch, ⟨input1⟩, record)
      else if ch = 0x2F then some (encodeRune ch, ⟨input1⟩, record)
      else if is_letter ch then
        match Lexer.readIdentifier ⟨input1.UnreadRune.2⟩ with
        | none => none
        | some (token, lex1) => some (token, lex1, record)
      else if is_digit ch then
        match Lexer.readNumber ⟨input1.UnreadRune.2⟩ with
        | none => none
        | some (token, lex1) => some (token, lex1, record)
      else some (encodeRune ch, ⟨input1⟩, record)

/-- The loop of `main` that also keeps the record: the separators discarded by
each `Tokenize` call, then the text of the token it returned. -/
def scanRecLoop : Nat → Lexer → List Piece → Option (List Piece)
  | 0, _, _ => none
  | fuel + 1, lexer, record =>
    match lexer.TokenizeRecFuel (lexer.input.Len + 1) record with
    | none => none
    | some (token, lexer1, record1) =>
      if token = [] then some record1
      else scanRecLoop fuel lexer1 (record1 ++ [Piece.tok token])

/-- The record of a full scan of `input`, in consumption order. -/
def scanRecord (input : List Byte) : Option (List Piece) :=
  scanRecLoop (input.length + 1) (NewLexer input) []

/-- The concatenation of a record. -/
def recordText (record : List Piece) : List Byte := record.flatMap Piece.text

/-- The state after `n` further `Tokenize` calls. -/
def Lexer.afterCalls : Nat → Lexer → Option Lexer
  | 0, lex => some lex
  | n + 1, lex =>
    match lex.Tokenize with
    | none => none
    | some (_, lex1) => Lexer.afterCalls n lex1

/-- The shape of an identifier: a letter or `'$'`, then letters, digits or `'$'`. -/
def identifierShape (tok : Token) : Bool :=
  match tok with
  | [] => false
  | c :: t => is_letter c.val && t.all isIdent

/-- The shape of a number: one or more digits. -/
def numberShape (tok : Token) : Bool :=
  !tok.isEmpty && tok.all isDig

/-- The shape of a one-character token: the token is the encoding of exactly one
rune, which is no letter, `'$'`, digit, `' '` or `';'`. -/
def singleShape (tok : Token) : Bool :=
  (decodeRune tok).2 == tok.length && encodeRune (decodeRune tok).1 == tok
    && !is_letter (decodeRune tok).1 && !is_digit (decodeRune tok).1
    && (decodeRune tok).1 != 0x20 && (decodeRune tok).1 != 0x3B

/-! ## The goroutine stack and the error values, observed

`Tokenize` calls itself once for every separator it skips, and each call takes a
frame on the goroutine stack, which the Go runtime bounds: a call that finds no
room aborts the program with the fatal error "stack overflow".  The program also
discards two error values, that of `UnreadRune` and that of `strconv.Atoi`.  The
functions below are `readIdentifier`, `readNumber`, `Tokenize` and the loop of
`main` once more, on a stack that holds `frames` nested calls of `Tokenize`, and
returning in addition what became of those error values. -/

/-- A fatal error of the Go runtime, which ends the program. -/
inductive Fatal where
  | stackOverflow
deriving DecidableEq, Repr

/-- What a call met: `unreadOk` says that every `UnreadRune` it performed returned
a nil error, `atoiOk` that no `strconv.Atoi` it performed returned an error (the
branch `err == nil` of `readNumber` was taken whenever the check was reached). -/
structure Obs where
  unreadOk : Bool
  atoiOk : Bool
deriving DecidableEq, Repr

/-- The loop of `readIdentifier`, with the flag of its `UnreadRune`. -/
def readIdentifierLoopOk : Nat → Buffer → List Byte → Option (List Byte × Buffer × Bool)
  | 0, _, _ => none
  | fuel + 1, input, buffer =>
    match input.ReadRune with
    | (none, input1) => some (buffer, input1, true)
    | (some (ch, _), input1) =>
      if !is_letter ch && !is_digit ch then
        some (buffer, input1.UnreadRune.2, input1.UnreadRune.1)
      else
        readIdentifierLoopOk fuel input1 (WriteRune buffer ch)

/-- The method `readIdentifier`, with the flag of its `UnreadRune`. -/
def Lexer.readIdentifierOk (lex : Lexer) : Option (Token × Lexer × Bool) :=
  match readIdentifierLoopOk (lex.input.Len + 1) lex.input [] with
  | none => none
  | some (buffer, input1, ok) => some (buffer, ⟨input1⟩, ok)

/-- The loop of `readNumber`, with the flag of its `UnreadRune`. -/
def readNumberLoopOk : Nat → Buffer → List Byte → Option (List Byte × Buffer × Bool)
  | 0, _, _ => none
  | fuel + 1, input, buffer =>
    match input.ReadRune with
    | (none, input1) => some (buffer, input1, true)
    | (some (ch, _), input1) =>
      if !is_digit ch then
        some (buffer, input1.UnreadRune.2, input1.UnreadRune.1)
      else
        readNumberLoopOk fuel input1 (WriteRune buffer ch)

/-- The method `readNumber`, with the flag of its `UnreadRune` and with the
branch taken after `strconv.Atoi`: `atoiOk` is `false` on the path where `Atoi`
returned an error. -/
def Lexer.readNumberObs (lex : Lexer) : Option (Token × Lexer × Obs) :=
  match readNumberLoopOk (lex.input.Len + 1) lex.input [] with
  | none => none
  | some (buffer, input1, ok) =>
    let numberStr := buffer
    if (Atoi numberStr).isSome then some (numberStr, ⟨input1⟩, ⟨ok, true⟩)
    else some (buffer, ⟨input1⟩, ⟨ok, false⟩)

/-- The method `Tokenize` on a goroutine stack with room for `frames` nested
calls of `Tokenize`.  A call that finds no room is the fatal error; otherwise the
call returns its token, the lexer after it, and what it met.  The outer `none`
is the step budget of the two loops running out. -/
def Lexer.TokenizeStack : Nat → Lexer → Option (Except Fatal (Token × Lexer × Obs))
  | 0, _ => some (Except.error Fatal.stackOverflow)
  | frames + 1, lex =>
    match lex.input.ReadRune with
    | (none, input1) => some (Except.ok ([], ⟨input1⟩, ⟨true, true⟩))
    | (some (ch, _), input1) =>
      if ch = 0x20 then Lexer.TokenizeStack frames ⟨input1⟩
      else if ch = 0x3B then Lexer.TokenizeStack frames ⟨input1⟩
      else if ch = 0x28 then some (Except.ok (LeftPar, ⟨input1⟩, ⟨true, true⟩))
      else if ch = 0x29 then some (Except.ok (RightPar, ⟨input1⟩, ⟨true, true⟩))
      else if ch = 0x7B then some (Except.ok (OpenBrac, ⟨input1⟩, ⟨true, true⟩))
      else if ch = 0x7D then some (Except.ok (CloseBrac, ⟨input1⟩, ⟨true, true⟩))
      else if ch = 0x2B then some (Except.ok (encodeRune ch, ⟨input1⟩, ⟨true, true⟩))
      else if ch = 0x2D then some (Except.ok (encodeRune ch, ⟨input1⟩, ⟨true, true⟩))
      else if ch = 0x2A then some (Except.ok (encodeRune ch, ⟨input1⟩, ⟨true, true⟩))
      else if ch = 0x2F then some (Except.ok (encodeRune ch, ⟨input1⟩, ⟨true, true⟩))
      else if is_letter ch then
        match Lexer.readIdentifierOk ⟨input1.UnreadRune.2⟩ with
        | none => none
        | some (token, lex1, ok) =>
          some (Except.ok (token, lex1, ⟨input1.UnreadRune.1 && ok, true⟩))
      else if is_digit ch then
        match Lexer.readNumberObs ⟨input1.UnreadRune.2⟩ with
        | none => none
        | some (token, lex1, obs) =>
          some (Except.ok (token, lex1, ⟨input1.UnreadRune.1 && obs.unreadOk, obs.atoiOk⟩))
      else some (Except.ok (encodeRune ch, ⟨input1⟩, ⟨true, true⟩))

/-- The loop of `main` on a goroutine stack with room for `frames` nested calls
of `Tokenize` below `main`: a fatal error in a call ends the program. -/
def scanLoopStack : Nat → Nat → Lexer → List Token → Option (Except Fatal (List Token))
  | 0, _, _, _ => none
  | fuel + 1, frames, lexer, tokens =>
    match lexer.TokenizeStack frames with
    | none => none
    | some (Except.error e) => some (Except.error e)
    | some (Except.ok (token, lexer1, _)) =>
      if token = [] then some (Except.ok tokens)
      else scanLoopStack fuel frames lexer1 (tokens ++ [token])

/-- A full scan of `input` on a goroutine stack with room for `frames` nested
calls of `Tokenize`. -/
def scanStack (frames : Nat) (input : List Byte) : Option (Except Fatal (List Token)) :=
  scanLoopStack (input.length + 1) frames (NewLexer input) []

/-! ## Facts about UTF-8 decoding and encoding -/

theorem runeWidth_cases (p0 : Byte) :
    (runeWidth p0 = 2 ∧ p0.val < 0xE0) ∨ (runeWidth p0 = 3 ∧ 0xE0 ≤ p0.val ∧ p0.val < 0xF0)
      ∨ (runeWidth p0 = 4 ∧ 0xF0 ≤ p0.val) := by
  unfold runeWidth; split_ifs <;> omega

theorem acceptLo_cases (p0 : Byte) :
    (acceptLo p0 = 0xA0 ∧ p0.val = 0xE0) ∨ (acceptLo p0 = 0x90 ∧ p0.val = 0xF0)
      ∨ (acceptLo p0 = 0x80 ∧ p0.val ≠ 0xE0 ∧ p0.val ≠ 0xF0) := by
  unfold acceptLo; split_ifs <;> omega

theorem acceptHi_cases (p0 : Byte) :
    (acceptHi p0 = 0x9F ∧ p0.val = 0xED) ∨ (acceptHi p0 = 0x8F ∧ p0.val = 0xF4)
      ∨ (acceptHi p0 = 0xBF ∧ p0.val ≠ 0xED ∧ p0.val ≠ 0xF4) := by
  unfold acceptHi; split_ifs <;> omega

theorem decodeRune_ascii (c : Byte) (rest : List Byte) (h : c.val < 0x80) :
    decodeRune (c :: rest) = (c.val, 1) := by
  simp [decodeRune, h]

theorem decodeRune_size (c : Byte) (rest : List Byte) :
    1 ≤ (decodeRune (c :: rest)).2 ∧ (decodeRune (c :: rest)).2 ≤ (c :: rest).length := by
  have hw := runeWidth_cases c
  unfold decodeRune
  repeat' split
  all_goals simp_all

theorem decodeRune_nonascii (c : Byte) (rest : List Byte) (h : ¬ c.val < 0x80) :
    0x80 ≤ (decodeRune (c :: rest)).1 := by
  have hw := runeWidth_cases c
  have hl := acceptLo_cases c
  have hh := acceptHi_cases c
  unfold decodeRune
  repeat' split
  all_goals simp_all [RuneError]
  all_goals omega
@[simp] theorem byte_val_eq (n : Nat) : (byte n).val = n % 256 := rfl

theorem byte_val (c : Byte) : byte c.val = c := by
  apply Fin.ext
  simp only [byte_val_eq]
  omega

theorem encodeRune_ascii (c : Byte) (h : c.val < 0x80) : encodeRune c.val = [c] := by
  simp [encodeRune, h, byte_val]

theorem encodeRune_ne_nil (r : Nat) : encodeRune r ≠ [] := by
  unfold encodeRune
  split_ifs <;> simp

theorem decodeRune_two (p0 b1 : Byte) (rest : List Byte) (h0 : 0xC2 ≤ p0.val) (h0' : p0.val < 0xE0)
    (h1 : 0x80 ≤ b1.val) (h1' : b1.val ≤ 0xBF) :
    decodeRune (p0 :: b1 :: rest) = (p0.val % 32 * 64 + b1.val % 64, 2) := by
  have e1 : runeWidth p0 = 2 := by rw [runeWidth, if_pos h0']
  have e2 : acceptLo p0 = 0x80 := by unfold acceptLo; split_ifs <;> omega
  have e3 : acceptHi p0 = 0xBF := by unfold acceptHi; split_ifs <;> omega
  have n1 : ¬ p0.val < 0x80 := by omega
  have n2 : ¬ (p0.val < 0xC2 ∨ 0xF4 < p0.val) := by omega
  have n3 : ¬ (b1.val < 0x80 ∨ 0xBF < b1.val) := by omega
  simp only [decodeRune, e1, e2, e3, if_neg n1, if_neg n2, if_neg n3, List.length_cons]
  simp
theorem decodeRune_three (p0 b1 b2 : Byte) (rest : List Byte) (h0 : 0xE0 ≤ p0.val)
    (h0' : p0.val < 0xF0) (h1 : acceptLo p0 ≤ b1.val) (h1' : b1.val ≤ acceptHi p0)
    (h2 : 0x80 ≤ b2.val) (h2' : b2.val ≤ 0xBF) :
    decodeRune (p0 :: b1 :: b2 :: rest)
      = (p0.val % 16 * 4096 + b1.val % 64 * 64 + b2.val % 64, 3) := by
  have e1 : runeWidth p0 = 3 := by unfold runeWidth; split_ifs <;> omega
  have n1 : ¬ p0.val < 0x80 := by omega
  have n2 : ¬ (p0.val < 0xC2 ∨ 0xF4 < p0.val) := by omega
  have n3 : ¬ (b1.val < acceptLo p0 ∨ acceptHi p0 < b1.val) := by omega
  have n4 : ¬ (b2.val < 0x80 ∨ 0xBF < b2.val) := by omega
  simp only [decodeRune, e1, if_neg n1, if_neg n2, if_neg n3, if_neg n4, List.length_cons]
  simp

theorem decodeRune_four (p0 b1 b2 b3 : Byte) (rest : List Byte) (h0 : 0xF0 ≤ p0.val)
    (h0' : p0.val ≤ 0xF4) (h1 : acceptLo p0 ≤ b1.val) (h1' : b1.val ≤ acceptHi p0)
    (h2 : 0x80 ≤ b2.val) (h2' : b2.val ≤ 0xBF) (h3 : 0x80 ≤ b3.val) (h3' : b3.val ≤ 0xBF) :
    decodeRune (p0 :: b1 :: b2 :: b3 :: rest)
      = (p0.val % 8 * 262144 + b1.val % 64 * 4096 + b2.val % 64 * 64 + b3.val % 64, 4) := by
  have e1 : runeWidth p0 = 4 := by unfold runeWidth; split_ifs <;> omega
  have n1 : ¬ p0.val < 0x80 := by omega
  have n2 : ¬ (p0.val < 0xC2 ∨ 0xF4 < p0.val) := by omega
  have n3 : ¬ (b1.val < acceptLo p0 ∨ acceptHi p0 < b1.val) := by omega
  have n4 : ¬ (b2.val < 0x80 ∨ 0xBF < b2.val) := by omega
  have n5 : ¬ (b3.val < 0x80 ∨ 0xBF < b3.val) := by omega
  simp only [decodeRune, e1, if_neg n1, if_neg n2, if_neg n3, if_neg n4, if_neg n5,
    List.length_cons]
  simp


theorem decodeRune_encodeRune (r : Nat) (rest : List Byte) (h : validRune r = true) :
    decodeRune (encodeRune r ++ rest) = (r, (encodeRune r).length) := by
  simp only [validRune, Bool.or_eq_true, Bool.and_eq_true, decide_eq_true_eq] at h
  unfold encodeRune
  split_ifs with h1 h2 h3 h4
  · have hb : (byte r).val < 0x80 := by simp only [byte_val_eq]; omega
    have e := decodeRune_ascii (byte r) rest hb
    simp only [byte_val_eq] at e
    simp only [List.cons_append, List.nil_append, List.length_cons, List.length_nil, e]
    congr 1
    omega
  · have e := decodeRune_two (byte (0xC0 + r / 64)) (byte (0x80 + r % 64)) rest
      (by simp only [byte_val_eq]; omega) (by simp only [byte_val_eq]; omega)
      (by simp only [byte_val_eq]; omega) (by simp only [byte_val_eq]; omega)
    simp only [byte_val_eq] at e
    simp only [List.cons_append, List.nil_append, List.length_cons, List.length_nil, e]
    congr 1
    omega
  · omega
  · have hl := acceptLo_cases (byte (0xE0 + r / 4096))
    have hh := acceptHi_cases (byte (0xE0 + r / 4096))
    simp only [byte_val_eq] at hl hh
    have e := decodeRune_three (byte (0xE0 + r / 4096)) (byte (0x80 + r / 64 % 64))
      (byte (0x80 + r % 64)) rest
      (by simp only [byte_val_eq]; omega) (by simp only [byte_val_eq]; omega)
      (by simp only [byte_val_eq]; omega) (by simp only [byte_val_eq]; omega)
      (by simp only [byte_val_eq]; omega) (by simp only [byte_val_eq]; omega)
    simp only [byte_val_eq] at e
    simp only [List.cons_append, List.nil_append, List.length_cons, List.length_nil, e]
    congr 1
    omega
  · have hl := acceptLo_cases (byte (0xF0 + r / 262144))
    have hh := acceptHi_cases (byte (0xF0 + r / 262144))
    simp only [byte_val_eq] at hl hh
    have e := decodeRune_four (byte (0xF0 + r / 262144)) (byte (0x80 + r / 4096 % 64))
      (byte (0x80 + r / 64 % 64)) (byte (0x80 + r % 64)) rest
      (by simp only [byte_val_eq]; omega) (by simp only [byte_val_eq]; omega)
      (by simp only [byte_val_eq]; omega) (by simp only [byte_val_eq]; omega)
      (by simp only [byte_val_eq]; omega) (by simp only [byte_val_eq]; omega)
      (by simp only [byte_val_eq]; omega) (by simp only [byte_val_eq]; omega)
    simp only [byte_val_eq] at e
    simp only [List.cons_append, List.nil_append, List.length_cons, List.length_nil, e]
    congr 1
    omega

theorem encodeRune_nonascii (r : Nat) (h : 0x80 ≤ r) : ∀ b ∈ encodeRune r, 0x80 ≤ b.val := by
  unfold encodeRune
  split_ifs with h1 h2 h3 h4
  · omega
  · intro b hb
    simp only [List.mem_cons, List.mem_singleton, List.not_mem_nil, or_false] at hb
    rcases hb with rfl | rfl <;> simp only [byte_val_eq] <;> omega
  · intro b hb
    simp only [List.mem_cons, List.mem_singleton, List.not_mem_nil, or_false] at hb
    rcases hb with rfl | rfl | rfl <;> decide
  · intro b hb
    simp only [List.mem_cons, List.mem_singleton, List.not_mem_nil, or_false] at hb
    rcases hb with rfl | rfl | rfl <;> simp only [byte_val_eq] <;> omega
  · intro b hb
    simp only [List.mem_cons, List.mem_singleton, List.not_mem_nil, or_false] at hb
    rcases hb with rfl | rfl | rfl | rfl <;> simp only [byte_val_eq] <;> omega
/-! ## Facts about the buffer -/

theorem Buffer.Len_eq (b : Buffer) : b.Len = b.unread.length := by
  simp [Buffer.Len, Buffer.unread]

theorem Buffer.ReadRune_nil (b : Buffer) (h : b.unread = []) :
    b.ReadRune = (none, ⟨[], 0, 0⟩) := by
  unfold Buffer.unread at h
  simp [Buffer.ReadRune, h, Buffer.Reset]

theorem Buffer.ReadRune_cons (b : Buffer) (c : Byte) (rest : List Byte)
    (h : b.unread = c :: rest) :
    b.ReadRune = (some (decodeRune (c :: rest)),
      ⟨b.buf, b.off + (decodeRune (c :: rest)).2, (decodeRune (c :: rest)).2⟩) := by
  unfold Buffer.unread at h
  by_cases hc : c.val < 0x80
  · simp [Buffer.ReadRune, h, hc, decodeRune_ascii c rest hc]
  · simp [Buffer.ReadRune, h, hc]

theorem Buffer.unread_advance (b : Buffer) (n m : Nat) :
    (⟨b.buf, b.off + n, m⟩ : Buffer).unread = b.unread.drop n := by
  simp [Buffer.unread, List.drop_drop, Nat.add_comm]

theorem Buffer.UnreadRune_advance (b : Buffer) (n : Nat) (h : 1 ≤ n) :
    (⟨b.buf, b.off + n, n⟩ : Buffer).UnreadRune = (true, ⟨b.buf, b.off, 0⟩) := by
  have h0 : n ≠ 0 := by omega
  simp [Buffer.UnreadRune, h0]

theorem Buffer.unread_mk (buf : List Byte) (off m : Nat) :
    (⟨buf, off, m⟩ : Buffer).unread = buf.drop off := rfl
/-! ## The loops of `readIdentifier` and `readNumber` -/

theorem isIdent_ascii (c : Byte) (h : isIdent c = true) : c.val < 0x80 := by
  simp only [isIdent, is_letter, is_digit, Bool.or_eq_true, Bool.and_eq_true, decide_eq_true_eq,
    beq_iff_eq] at h
  omega

theorem isDig_ascii (c : Byte) (h : isDig c = true) : c.val < 0x80 := by
  simp only [isDig, is_digit, Bool.and_eq_true, decide_eq_true_eq] at h
  omega

theorem not_ident_of_nonascii (r : Nat) (h : 0x80 ≤ r) :
    is_letter r = false ∧ is_digit r = false := by
  constructor
  · simp only [is_letter, Bool.or_eq_false_iff, Bool.and_eq_false_iff, decide_eq_false_iff_not,
      beq_eq_false_iff_ne]
    omega
  · simp only [is_digit, Bool.and_eq_false_iff, decide_eq_false_iff_not]
    omega

/-- What the first rune of the unread bytes is, for the two run predicates. -/
theorem decodeRune_isIdent (c : Byte) (rest : List Byte) :
    (is_letter (decodeRune (c :: rest)).1 || is_digit (decodeRune (c :: rest)).1) = isIdent c := by
  by_cases hc : c.val < 0x80
  · rw [decodeRune_ascii c rest hc]; rfl
  · have h := not_ident_of_nonascii _ (decodeRune_nonascii c rest hc)
    have h' := not_ident_of_nonascii c.val (by omega)
    simp [isIdent, h.1, h.2, h'.1, h'.2]

theorem decodeRune_isDig (c : Byte) (rest : List Byte) :
    is_digit (decodeRune (c :: rest)).1 = isDig c := by
  by_cases hc : c.val < 0x80
  · rw [decodeRune_ascii c rest hc]; rfl
  · have h := not_ident_of_nonascii _ (decodeRune_nonascii c rest hc)
    have h' := not_ident_of_nonascii c.val (by omega)
    simp [isDig, h.2, h'.2]

theorem readIdentifierLoop_spec (fuel : Nat) :
    ∀ (b : Buffer) (acc : List Byte), b.unread.length < fuel →
      ∃ b1, readIdentifierLoop fuel b acc = some (acc ++ b.unread.takeWhile isIdent, b1)
        ∧ b1.unread = b.unread.dropWhile isIdent := by
  induction fuel with
  | zero => intro b acc h; omega
  | succ fuel ih =>
    intro b acc h
    cases hu : b.unread with
    | nil =>
      refine ⟨⟨[], 0, 0⟩, ?_, ?_⟩
      · simp [readIdentifierLoop, Buffer.ReadRune_nil b hu]
      · simp [Buffer.unread]
    | cons c rest =>
      have hsz := decodeRune_size c rest
      have hid := decodeRune_isIdent c rest
      by_cases hc : isIdent c = true
      · have hasc := isIdent_ascii c hc
        have hdec := decodeRune_ascii c rest hasc
        have hlen : (⟨b.buf, b.off + 1, 1⟩ : Buffer).unread.length < fuel := by
          rw [Buffer.unread_advance, hu]
          rw [hu] at h
          simp only [List.length_cons, List.drop_succ_cons, List.drop_zero] at h ⊢
          omega
        obtain ⟨b1, e1, e2⟩ := ih ⟨b.buf, b.off + 1, 1⟩ (WriteRune acc c.val) hlen
        refine ⟨b1, ?_, ?_⟩
        · rw [readIdentifierLoop, Buffer.ReadRune_cons b c rest hu, hdec]
          have hid' : (is_letter c.val || is_digit c.val) = true := hc
          simp only [Bool.or_eq_true] at hid'
          have : (!is_letter c.val && !is_digit c.val) = false := by
            rcases hid' with h1 | h1 <;> simp [h1]
          simp only [this, Bool.false_eq_true, if_false]
          rw [e1, Buffer.unread_advance, hu]
          simp [WriteRune, encodeRune_ascii c hasc, List.takeWhile_cons, hc]
        · rw [e2, Buffer.unread_advance, hu]
          simp [List.dropWhile_cons, hc]
      · refine ⟨⟨b.buf, b.off, 0⟩, ?_, ?_⟩
        · rw [readIdentifierLoop, Buffer.ReadRune_cons b c rest hu]
          have hid2 : (is_letter (decodeRune (c :: rest)).1 || is_digit (decodeRune (c :: rest)).1)
              = false := by rw [hid]; simpa using hc
          simp only [Bool.or_eq_false_iff] at hid2
          simp [hid2.1, hid2.2, Buffer.UnreadRune_advance b _ hsz.1, List.takeWhile_cons, hc]
        · show b.unread = _
          rw [hu]
          simp [List.dropWhile_cons, hc]
theorem readNumberLoop_spec (fuel : Nat) :
    ∀ (b : Buffer) (acc : List Byte), b.unread.length < fuel →
      ∃ b1, readNumberLoop fuel b acc = some (acc ++ b.unread.takeWhile isDig, b1)
        ∧ b1.unread = b.unread.dropWhile isDig := by
  induction fuel with
  | zero => intro b acc h; omega
  | succ fuel ih =>
    intro b acc h
    cases hu : b.unread with
    | nil =>
      refine ⟨⟨[], 0, 0⟩, ?_, ?_⟩
      · simp [readNumberLoop, Buffer.ReadRune_nil b hu]
      · simp [Buffer.unread]
    | cons c rest =>
      have hsz := decodeRune_size c rest
      have hid := decodeRune_isDig c rest
      by_cases hc : isDig c = true
      · have hasc := isDig_ascii c hc
        have hdec := decodeRune_ascii c rest hasc
        have hlen : (⟨b.buf, b.off + 1, 1⟩ : Buffer).unread.length < fuel := by
          rw [Buffer.unread_advance, hu]
          rw [hu] at h
          simp only [List.length_cons, List.drop_succ_cons, List.drop_zero] at h ⊢
          omega
        obtain ⟨b1, e1, e2⟩ := ih ⟨b.buf, b.off + 1, 1⟩ (WriteRune acc c.val) hlen
        refine ⟨b1, ?_, ?_⟩
        · rw [readNumberLoop, Buffer.ReadRune_cons b c rest hu, hdec]
          have hid' : is_digit c.val = true := hc
          simp only [hid', Bool.not_true, Bool.false_eq_true, if_false]
          rw [e1, Buffer.unread_advance, hu]
          simp [WriteRune, encodeRune_ascii c hasc, List.takeWhile_cons, hc]
        · rw [e2, Buffer.unread_advance, hu]
          simp [List.dropWhile_cons, hc]
      · refine ⟨⟨b.buf, b.off, 0⟩, ?_, ?_⟩
        · rw [readNumberLoop, Buffer.ReadRune_cons b c rest hu]
          have hid2 : is_digit (decodeRune (c :: rest)).1 = false := by rw [hid]; simpa using hc
          simp [hid2, Buffer.UnreadRune_advance b _ hsz.1, List.takeWhile_cons, hc]
        · show b.unread = _
          rw [hu]
          simp [List.dropWhile_cons, hc]

theorem Lexer.readIdentifier_spec (lex : Lexer) :
    ∃ lex1, lex.readIdentifier = some (lex.input.unread.takeWhile isIdent, lex1)
      ∧ lex1.input.unread = lex.input.unread.dropWhile isIdent := by
  obtain ⟨b1, e1, e2⟩ := readIdentifierLoop_spec (lex.input.Len + 1) lex.input []
    (by rw [Buffer.Len_eq]; omega)
  exact ⟨⟨b1⟩, by simp [Lexer.readIdentifier, e1], e2⟩

theorem Lexer.readNumber_spec (lex : Lexer) :
    ∃ lex1, lex.readNumber = some (lex.input.unread.takeWhile isDig, lex1)
      ∧ lex1.input.unread = lex.input.unread.dropWhile isDig := by
  obtain ⟨b1, e1, e2⟩ := readNumberLoop_spec (lex.input.Len + 1) lex.input []
    (by rw [Buffer.Len_eq]; omega)
  exact ⟨⟨b1⟩, by simp [Lexer.readNumber, e1], e2⟩

/-! ## One `Tokenize` call, by the first unread byte -/

theorem is_letter_iff (ch : Nat) :
    is_letter ch = true ↔ (0x61 ≤ ch ∧ ch ≤ 0x7A) ∨ (0x41 ≤ ch ∧ ch ≤ 0x5A) ∨ ch = 0x24 := by
  simp only [is_letter, Bool.or_eq_true, Bool.and_eq_true, decide_eq_true_eq, beq_iff_eq]
  tauto

theorem is_digit_iff (ch : Nat) : is_digit ch = true ↔ 0x30 ≤ ch ∧ ch ≤ 0x39 := by
  simp only [is_digit, Bool.and_eq_true, decide_eq_true_eq]

theorem isSep_iff (c : Byte) : isSep c = true ↔ c.val = 0x20 ∨ c.val = 0x3B := by
  simp only [isSep, Bool.or_eq_true, beq_iff_eq]

theorem TokenizeFuel_nil (fuel : Nat) (lex : Lexer) (h : lex.input.unread = []) :
    Lexer.TokenizeFuel (fuel + 1) lex = some ([], ⟨⟨[], 0, 0⟩⟩) := by
  simp [Lexer.TokenizeFuel, Buffer.ReadRune_nil lex.input h]

theorem TokenizeFuel_sep (fuel : Nat) (lex : Lexer) (c : Byte) (rest : List Byte)
    (h : lex.input.unread = c :: rest) (hc : isSep c = true) :
    Lexer.TokenizeFuel (fuel + 1) lex
      = Lexer.TokenizeFuel fuel ⟨⟨lex.input.buf, lex.input.off + 1, 1⟩⟩ := by
  rw [isSep_iff] at hc
  have hdec := decodeRune_ascii c rest (by omega)
  rw [Lexer.TokenizeFuel, Buffer.ReadRune_cons lex.input c rest h, hdec]
  rcases hc with hc | hc <;> simp [hc]

theorem TokenizeFuel_letter (fuel : Nat) (lex : Lexer) (c : Byte) (rest : List Byte)
    (h : lex.input.unread = c :: rest) (hc : is_letter c.val = true) :
    Lexer.TokenizeFuel (fuel + 1) lex
      = Lexer.readIdentifier ⟨⟨lex.input.buf, lex.input.off, 0⟩⟩ := by
  have hl := (is_letter_iff c.val).1 hc
  have hdec := decodeRune_ascii c rest (by omega)
  rw [Lexer.TokenizeFuel, Buffer.ReadRune_cons lex.input c rest h, hdec]
  simp only [Buffer.UnreadRune_advance lex.input 1 (le_refl 1), hc, if_true]
  rw [if_neg (by omega), if_neg (by omega), if_neg (by omega), if_neg (by omega),
    if_neg (by omega), if_neg (by omega), if_neg (by omega), if_neg (by omega),
    if_neg (by omega), if_neg (by omega)]

theorem TokenizeFuel_digit (fuel : Nat) (lex : Lexer) (c : Byte) (rest : List Byte)
    (h : lex.input.unread = c :: rest) (hc : is_digit c.val = true) :
    Lexer.TokenizeFuel (fuel + 1) lex
      = Lexer.readNumber ⟨⟨lex.input.buf, lex.input.off, 0⟩⟩ := by
  have hl := (is_digit_iff c.val).1 hc
  have hnl : is_letter c.val = false := by
    rw [Bool.eq_false_iff, Ne, is_letter_iff]; omega
  have hdec := decodeRune_ascii c rest (by omega)
  rw [Lexer.TokenizeFuel, Buffer.ReadRune_cons lex.input c rest h, hdec]
  simp only [Buffer.UnreadRune_advance lex.input 1 (le_refl 1), hc, hnl, if_true,
    Bool.false_eq_true, if_false]
  rw [if_neg (by omega), if_neg (by omega), if_neg (by omega), if_neg (by omega),
    if_neg (by omega), if_neg (by omega), if_neg (by omega), if_neg (by omega),
    if_neg (by omega), if_neg (by omega)]

theorem bracket_tokens :
    LeftPar = encodeRune 0x28 ∧ RightPar = encodeRune 0x29 ∧ OpenBrac = encodeRune 0x7B
      ∧ CloseBrac = encodeRune 0x7D := by
  decide

theorem TokenizeFuel_other (fuel : Nat) (lex : Lexer) (c : Byte) (rest : List Byte)
    (h : lex.input.unread = c :: rest) (hs : isSep c = false)
    (hl : is_letter c.val = false) (hd : is_digit c.val = false) :
    Lexer.TokenizeFuel (fuel + 1) lex
      = some (encodeRune (decodeRune (c :: rest)).1,
          ⟨⟨lex.input.buf, lex.input.off + (decodeRune (c :: rest)).2,
            (decodeRune (c :: rest)).2⟩⟩) := by
  rw [Lexer.TokenizeFuel, Buffer.ReadRune_cons lex.input c rest h]
  rw [Bool.eq_false_iff, Ne, isSep_iff] at hs
  obtain ⟨b1, b2, b3, b4⟩ := bracket_tokens
  by_cases hc : c.val < 0x80
  · rw [decodeRune_ascii c rest hc]
    simp only [hl, hd, Bool.false_eq_true, if_false]
    rw [if_neg (by omega), if_neg (by omega)]
    by_cases h1 : c.val = 0x28
    · rw [if_pos h1, h1, b1]
    rw [if_neg h1]
    by_cases h2 : c.val = 0x29
    · rw [if_pos h2, h2, b2]
    rw [if_neg h2]
    by_cases h3 : c.val = 0x7B
    · rw [if_pos h3, h3, b3]
    rw [if_neg h3]
    by_cases h4 : c.val = 0x7D
    · rw [if_pos h4, h4, b4]
    rw [if_neg h4]
    simp only [ite_self]
  · have hge := decodeRune_nonascii c rest hc
    have hn := not_ident_of_nonascii _ hge
    simp only [hn.1, hn.2, Bool.false_eq_true, if_false]
    rw [if_neg (by omega), if_neg (by omega), if_neg (by omega), if_neg (by omega),
      if_neg (by omega), if_neg (by omega)]
    simp only [ite_self]
/-! ## One `Tokenize` call as a function of the unread bytes -/

theorem length_dropWhile_le (p : Byte → Bool) (l : List Byte) :
    (l.dropWhile p).length ≤ l.length := by
  induction l with
  | nil => simp
  | cons a l ih =>
    rw [List.dropWhile_cons]
    split
    · simp only [List.length_cons]; omega
    · exact le_refl _

theorem lexOne_fst_ne_nil (c : Byte) (rest : List Byte) : (lexOne c rest).1 ≠ [] := by
  unfold lexOne
  split_ifs with h1 h2
  · have : isIdent c = true := by simp [isIdent, h1]
    simp [List.takeWhile_cons, this]
  · have : isDig c = true := h2
    simp [List.takeWhile_cons, this]
  · exact encodeRune_ne_nil _

theorem lexOne_snd_length (c : Byte) (rest : List Byte) :
    (lexOne c rest).2.length ≤ rest.length := by
  unfold lexOne
  split_ifs with h1 h2
  · have : isIdent c = true := by simp [isIdent, h1]
    simp only [List.dropWhile_cons, this, if_true]
    exact length_dropWhile_le _ _
  · have : isDig c = true := h2
    simp only [List.dropWhile_cons, this, if_true]
    exact length_dropWhile_le _ _
  · have hsz := decodeRune_size c rest
    simp only [List.length_drop, List.length_cons] at hsz ⊢
    omega

theorem nextToken_snd_length (s : List Byte) : (nextToken s).2.length ≤ s.length := by
  induction s with
  | nil => simp [nextToken]
  | cons c rest ih =>
    rw [nextToken]
    split
    · simp only [List.length_cons]; omega
    · have := lexOne_snd_length c rest
      simp only [List.length_cons]; omega

theorem nextToken_snd_length_lt (s : List Byte) (h : s ≠ []) :
    (nextToken s).2.length < s.length := by
  cases s with
  | nil => exact absurd rfl h
  | cons c rest =>
    rw [nextToken]
    split
    · have := nextToken_snd_length rest
      simp only [List.length_cons]; omega
    · have := lexOne_snd_length c rest
      simp only [List.length_cons]; omega

theorem nextToken_fst_eq_nil_iff (s : List Byte) :
    (nextToken s).1 = [] ↔ ∀ c ∈ s, isSep c = true := by
  induction s with
  | nil => simp [nextToken]
  | cons c rest ih =>
    rw [nextToken]
    by_cases hc : isSep c = true
    · simp [hc, ih]
    · simp [hc, lexOne_fst_ne_nil]

theorem nextToken_snd_of_fst_nil (s : List Byte) (h : (nextToken s).1 = []) :
    (nextToken s).2 = [] := by
  induction s with
  | nil => simp [nextToken]
  | cons c rest ih =>
    rw [nextToken] at h ⊢
    by_cases hc : isSep c = true
    · simp only [hc, if_true] at h ⊢; exact ih h
    · simp only [hc, Bool.false_eq_true, if_false] at h
      exact absurd h (lexOne_fst_ne_nil c rest)

theorem TokenizeFuel_spec (fuel : Nat) :
    ∀ lex : Lexer, lex.input.unread.length < fuel →
      ∃ lex1, Lexer.TokenizeFuel fuel lex = some ((nextToken lex.input.unread).1, lex1)
        ∧ lex1.input.unread = (nextToken lex.input.unread).2 := by
  induction fuel with
  | zero => intro lex h; omega
  | succ fuel ih =>
    intro lex h
    cases hu : lex.input.unread with
    | nil => exact ⟨_, TokenizeFuel_nil fuel lex hu, by simp [nextToken, Buffer.unread]⟩
    | cons c rest =>
      rw [hu] at h
      simp only [List.length_cons] at h
      rw [nextToken]
      by_cases hs : isSep c = true
      · have hrest : (⟨lex.input.buf, lex.input.off + 1, 1⟩ : Buffer).unread = rest := by
          rw [Buffer.unread_advance, hu]; rfl
        obtain ⟨lex1, e1, e2⟩ := ih ⟨⟨lex.input.buf, lex.input.off + 1, 1⟩⟩
          (by rw [hrest]; omega)
        rw [hrest] at e1 e2
        exact ⟨lex1, by rw [TokenizeFuel_sep fuel lex c rest hu hs, e1, if_pos hs],
          by rw [e2, if_pos hs]⟩
      · rw [if_neg hs]
        have hs' : isSep c = false := by simpa using hs
        have hback : (⟨lex.input.buf, lex.input.off, 0⟩ : Buffer).unread = c :: rest := hu
        by_cases hl : is_letter c.val = true
        · obtain ⟨lex1, e1, e2⟩ := Lexer.readIdentifier_spec ⟨⟨lex.input.buf, lex.input.off, 0⟩⟩
          rw [hback] at e1 e2
          exact ⟨lex1, by rw [TokenizeFuel_letter fuel lex c rest hu hl, e1, lexOne, if_pos hl],
            by rw [e2, lexOne, if_pos hl]⟩
        · by_cases hd : is_digit c.val = true
          · obtain ⟨lex1, e1, e2⟩ := Lexer.readNumber_spec ⟨⟨lex.input.buf, lex.input.off, 0⟩⟩
            rw [hback] at e1 e2
            exact ⟨lex1,
              by rw [TokenizeFuel_digit fuel lex c rest hu hd, e1, lexOne, if_neg hl, if_pos hd],
              by rw [e2, lexOne, if_neg hl, if_pos hd]⟩
          · have hl' : is_letter c.val = false := by simpa using hl
            have hd' : is_digit c.val = false := by simpa using hd
            refine ⟨⟨⟨lex.input.buf, lex.input.off + (decodeRune (c :: rest)).2,
              (decodeRune (c :: rest)).2⟩⟩, ?_, ?_⟩
            · rw [TokenizeFuel_other fuel lex c rest hu hs' hl' hd', lexOne, if_neg hl, if_neg hd]
            · rw [lexOne, if_neg hl, if_neg hd, Buffer.unread_advance, hu]

theorem TokenizeFuel_irrel (f1 : Nat) :
    ∀ (f2 : Nat) (lex : Lexer), lex.input.unread.length < f1 → lex.input.unread.length < f2 →
      Lexer.TokenizeFuel f1 lex = Lexer.TokenizeFuel f2 lex := by
  induction f1 with
  | zero => intro f2 lex h; omega
  | succ f1 ih =>
    intro f2 lex h1 h2
    cases f2 with
    | zero => omega
    | succ f2 =>
      cases hu : lex.input.unread with
      | nil => rw [TokenizeFuel_nil f1 lex hu, TokenizeFuel_nil f2 lex hu]
      | cons c rest =>
        rw [hu] at h1 h2
        simp only [List.length_cons] at h1 h2
        by_cases hs : isSep c = true
        · have hrest : (⟨lex.input.buf, lex.input.off + 1, 1⟩ : Buffer).unread = rest := by
            rw [Buffer.unread_advance, hu]; rfl
          rw [TokenizeFuel_sep f1 lex c rest hu hs, TokenizeFuel_sep f2 lex c rest hu hs]
          exact ih f2 _ (by rw [hrest]; omega) (by rw [hrest]; omega)
        · have hs' : isSep c = false := by simpa using hs
          by_cases hl : is_letter c.val = true
          · rw [TokenizeFuel_letter f1 lex c rest hu hl, TokenizeFuel_letter f2 lex c rest hu hl]
          · by_cases hd : is_digit c.val = true
            · rw [TokenizeFuel_digit f1 lex c rest hu hd, TokenizeFuel_digit f2 lex c rest hu hd]
            · have hl' : is_letter c.val = false := by simpa using hl
              have hd' : is_digit c.val = false := by simpa using hd
              rw [TokenizeFuel_other f1 lex c rest hu hs' hl' hd',
                TokenizeFuel_other f2 lex c rest hu hs' hl' hd']

theorem Tokenize_spec (lex : Lexer) :
    ∃ lex1, lex.Tokenize = some ((nextToken lex.input.unread).1, lex1)
      ∧ lex1.input.unread = (nextToken lex.input.unread).2 :=
  TokenizeFuel_spec (lex.input.Len + 1) lex (by rw [Buffer.Len_eq]; omega)
/-! ## A full scan as a function of the input bytes -/

theorem tokens_eq (s : List Byte) :
    tokens s = if (nextToken s).1 = [] then [] else (nextToken s).1 :: tokens (nextToken s).2 := by
  rw [tokens]
  by_cases h : (nextToken s).1 = []
  · simp only [h, if_true]
  · have hne : s ≠ [] := by
      intro hs; apply h; rw [hs]; rfl
    simp only [h, if_false, nextToken_snd_length_lt s hne, dite_true]

theorem tokens_nil : tokens [] = [] := by
  rw [tokens_eq]; rfl

theorem tokens_sep (c : Byte) (rest : List Byte) (hc : isSep c = true) :
    tokens (c :: rest) = tokens rest := by
  rw [tokens_eq, tokens_eq rest, nextToken, if_pos hc]

theorem tokens_cons (c : Byte) (rest : List Byte) (hc : isSep c = false) :
    tokens (c :: rest) = (lexOne c rest).1 :: tokens (lexOne c rest).2 := by
  have hc' : ¬ isSep c = true := by simp [hc]
  rw [tokens_eq, nextToken, if_neg hc', if_neg (lexOne_fst_ne_nil c rest)]

theorem scanLoop_spec (fuel : Nat) :
    ∀ (lex : Lexer) (acc : List Token), lex.input.unread.length < fuel →
      scanLoop fuel lex acc = some (acc ++ tokens lex.input.unread) := by
  induction fuel with
  | zero => intro lex acc h; omega
  | succ fuel ih =>
    intro lex acc h
    obtain ⟨lex1, e1, e2⟩ := Tokenize_spec lex
    rw [scanLoop, e1, tokens_eq]
    by_cases ht : (nextToken lex.input.unread).1 = []
    · simp [ht]
    · have hne : lex.input.unread ≠ [] := by
        intro hs; apply ht; rw [hs]; rfl
      have hlt := nextToken_snd_length_lt _ hne
      simp only [ht, if_false]
      rw [ih lex1 _ (by rw [e2]; omega), e2]
      simp

theorem scan_eq (s : List Byte) : scan s = some (tokens s) := by
  have h := scanLoop_spec (s.length + 1) (NewLexer s) [] (by
    simp [NewLexer, Buffer.NewBufferString, Buffer.unread])
  simpa [scan, NewLexer, Buffer.NewBufferString, Buffer.unread] using h
/-! ## The record of a scan -/

/-- The separators discarded by one `Tokenize` call, from the unread bytes. -/
theorem decodeRune_fst_sep (c : Byte) (rest : List Byte) :
    ((decodeRune (c :: rest)).1 = 0x20 ∨ (decodeRune (c :: rest)).1 = 0x3B) ↔ isSep c = true := by
  rw [isSep_iff]
  by_cases hc : c.val < 0x80
  · rw [decodeRune_ascii c rest hc]
  · have := decodeRune_nonascii c rest hc
    constructor <;> intro h <;> omega

theorem TokenizeRecFuel_nil (fuel : Nat) (lex : Lexer) (record : List Piece)
    (h : lex.input.unread = []) :
    Lexer.TokenizeRecFuel (fuel + 1) lex record = some ([], ⟨⟨[], 0, 0⟩⟩, record) := by
  simp [Lexer.TokenizeRecFuel, Buffer.ReadRune_nil lex.input h]

theorem TokenizeRecFuel_sep (fuel : Nat) (lex : Lexer) (record : List Piece) (c : Byte)
    (rest : List Byte) (h : lex.input.unread = c :: rest) (hc : isSep c = true) :
    Lexer.TokenizeRecFuel (fuel + 1) lex record
      = Lexer.TokenizeRecFuel fuel ⟨⟨lex.input.buf, lex.input.off + 1, 1⟩⟩
          (record ++ [Piece.sep c.val]) := by
  rw [isSep_iff] at hc
  have hdec := decodeRune_ascii c rest (by omega)
  rw [Lexer.TokenizeRecFuel, Buffer.ReadRune_cons lex.input c rest h, hdec]
  rcases hc with hc | hc
  · simp only [if_pos hc]
  · simp only [if_pos hc, ite_self]

theorem TokenizeRecFuel_not_sep (fuel : Nat) (lex : Lexer) (record : List Piece) (c : Byte)
    (rest : List Byte) (h : lex.input.unread = c :: rest) (hc : isSep c = false) :
    Lexer.TokenizeRecFuel (fuel + 1) lex record
      = (Lexer.TokenizeFuel (fuel + 1) lex).map (fun p => (p.1, p.2, record)) := by
  have hns : ¬ ((decodeRune (c :: rest)).1 = 0x20 ∨ (decodeRune (c :: rest)).1 = 0x3B) := by
    rw [decodeRune_fst_sep, hc]; simp
  rw [Lexer.TokenizeRecFuel, Lexer.TokenizeFuel, Buffer.ReadRune_cons lex.input c rest h]
  simp only
  rw [if_neg (fun h => hns (Or.inl h)), if_neg (fun h => hns (Or.inr h)),
    if_neg (fun h => hns (Or.inl h)), if_neg (fun h => hns (Or.inr h))]
  generalize (decodeRune (c :: rest)).1 = ch
  by_cases h1 : ch = 0x28
  · rw [if_pos h1, if_pos h1]; rfl
  rw [if_neg h1, if_neg h1]
  by_cases h2 : ch = 0x29
  · rw [if_pos h2, if_pos h2]; rfl
  rw [if_neg h2, if_neg h2]
  by_cases h3 : ch = 0x7B
  · rw [if_pos h3, if_pos h3]; rfl
  rw [if_neg h3, if_neg h3]
  by_cases h4 : ch = 0x7D
  · rw [if_pos h4, if_pos h4]; rfl
  rw [if_neg h4, if_neg h4]
  by_cases h5 : ch = 0x2B
  · rw [if_pos h5, if_pos h5]; rfl
  rw [if_neg h5, if_neg h5]
  by_cases h6 : ch = 0x2D
  · rw [if_pos h6, if_pos h6]; rfl
  rw [if_neg h6, if_neg h6]
  by_cases h7 : ch = 0x2A
  · rw [if_pos h7, if_pos h7]; rfl
  rw [if_neg h7, if_neg h7]
  by_cases h8 : ch = 0x2F
  · rw [if_pos h8, if_pos h8]; rfl
  rw [if_neg h8, if_neg h8]
  by_cases h9 : is_letter ch = true
  · rw [if_pos h9, if_pos h9]
    cases Lexer.readIdentifier _ <;> rfl
  rw [if_neg h9, if_neg h9]
  by_cases h10 : is_digit ch = true
  · rw [if_pos h10, if_pos h10]
    cases Lexer.readNumber _ <;> rfl
  rw [if_neg h10, if_neg h10]
  rfl
theorem TokenizeRecFuel_spec (fuel : Nat) :
    ∀ (lex : Lexer) (record : List Piece), lex.input.unread.length < fuel →
      ∃ lex1, Lexer.TokenizeRecFuel fuel lex record
          = some ((nextToken lex.input.unread).1, lex1,
              record ++ (lex.input.unread.takeWhile isSep).map (fun c => Piece.sep c.val))
        ∧ lex1.input.unread = (nextToken lex.input.unread).2 := by
  induction fuel with
  | zero => intro lex record h; omega
  | succ fuel ih =>
    intro lex record h
    cases hu : lex.input.unread with
    | nil =>
      refine ⟨⟨⟨[], 0, 0⟩⟩, ?_, ?_⟩
      · rw [TokenizeRecFuel_nil fuel lex record hu]; simp [nextToken]
      · simp [nextToken, Buffer.unread]
    | cons c rest =>
      rw [hu] at h
      simp only [List.length_cons] at h
      by_cases hs : isSep c = true
      · have hrest : (⟨lex.input.buf, lex.input.off + 1, 1⟩ : Buffer).unread = rest := by
          rw [Buffer.unread_advance, hu]; rfl
        obtain ⟨lex1, e1, e2⟩ := ih ⟨⟨lex.input.buf, lex.input.off + 1, 1⟩⟩
          (record ++ [Piece.sep c.val]) (by rw [hrest]; omega)
        rw [hrest] at e1 e2
        refine ⟨lex1, ?_, ?_⟩
        · rw [TokenizeRecFuel_sep fuel lex record c rest hu hs, e1, nextToken, if_pos hs]
          simp [List.takeWhile_cons, hs]
        · rw [e2, nextToken, if_pos hs]
      · have hs' : isSep c = false := by simpa using hs
        obtain ⟨lex1, e1, e2⟩ := TokenizeFuel_spec (fuel + 1) lex (by rw [hu]; simpa using h)
        rw [hu] at e1 e2
        refine ⟨lex1, ?_, e2⟩
        rw [TokenizeRecFuel_not_sep fuel lex record c rest hu hs', e1]
        simp [List.takeWhile_cons, hs]

/-! ## Encoding the runes of a string again -/

theorem reencodeSkip_eq_drop (l : List Byte) :
    ∀ k, reencodeSkip k l = reencode (l.drop k) := by
  induction l with
  | nil => intro k; simp [reencode, reencodeSkip]
  | cons a l ih =>
    intro k
    cases k with
    | zero => rfl
    | succ k => rw [reencodeSkip, ih k]; rfl

theorem reencode_nil : reencode [] = [] := rfl

theorem reencode_cons (c : Byte) (rest : List Byte) :
    reencode (c :: rest) = encodeRune (decodeRune (c :: rest)).1
      ++ reencode ((c :: rest).drop (decodeRune (c :: rest)).2) := by
  have hsz := (decodeRune_size c rest).1
  obtain ⟨k, hk⟩ : ∃ k, (decodeRune (c :: rest)).2 = k + 1 := ⟨_, (Nat.sub_add_cancel hsz).symm⟩
  rw [reencode, reencodeSkip, reencodeSkip_eq_drop, hk]
  rfl

theorem reencode_ascii_cons (c : Byte) (rest : List Byte) (h : c.val < 0x80) :
    reencode (c :: rest) = c :: reencode rest := by
  rw [reencode_cons, decodeRune_ascii c rest h, encodeRune_ascii c h]
  rfl

theorem reencode_span (p : Byte → Bool) (hp : ∀ c, p c = true → c.val < 0x80) (l : List Byte) :
    reencode l = l.takeWhile p ++ reencode (l.dropWhile p) := by
  induction l with
  | nil => rfl
  | cons a l ih =>
    by_cases ha : p a = true
    · rw [List.takeWhile_cons, List.dropWhile_cons, if_pos ha, if_pos ha,
        reencode_ascii_cons a l (hp a ha), ih]
      rfl
    · rw [List.takeWhile_cons, List.dropWhile_cons, if_neg ha, if_neg ha]
      rfl

theorem isSep_ascii (c : Byte) (h : isSep c = true) : c.val < 0x80 := by
  rw [isSep_iff] at h; omega

theorem reencode_lexOne (c : Byte) (rest : List Byte) :
    reencode (c :: rest) = (lexOne c rest).1 ++ reencode (lexOne c rest).2 := by
  unfold lexOne
  split_ifs with h1 h2
  · exact reencode_span isIdent isIdent_ascii (c :: rest)
  · exact reencode_span isDig isDig_ascii (c :: rest)
  · exact reencode_cons c rest

theorem reencode_nextToken (s : List Byte) :
    reencode s = s.takeWhile isSep ++ ((nextToken s).1 ++ reencode (nextToken s).2) := by
  induction s with
  | nil => rfl
  | cons c rest ih =>
    by_cases hc : isSep c = true
    · rw [List.takeWhile_cons, nextToken, if_pos hc, if_pos hc,
        reencode_ascii_cons c rest (isSep_ascii c hc), ih]
      rfl
    · rw [List.takeWhile_cons, nextToken, if_neg hc, if_neg hc, reencode_lexOne]
      rfl

theorem reencode_encodeRune_append (r : Nat) (rest : List Byte) (h : validRune r = true) :
    reencode (encodeRune r ++ rest) = encodeRune r ++ reencode rest := by
  have hd := decodeRune_encodeRune r rest h
  cases he : encodeRune r with
  | nil => exact absurd he (encodeRune_ne_nil r)
  | cons a t =>
    rw [he] at hd
    rw [List.cons_append, reencode_cons, ← List.cons_append, hd]
    simp only [List.drop_left]
    rw [← he]

theorem validRune_char (c : Char) : validRune c.toNat = true := by
  have h := c.valid
  simp only [validRune, Bool.or_eq_true, Bool.and_eq_true, decide_eq_true_eq]
  rcases h with h | h
  · left; exact h
  · right; exact ⟨h.1, Nat.le_of_lt_succ h.2⟩

theorem reencode_str (w : String) : reencode (str w) = str w := by
  unfold str
  induction w.toList with
  | nil => rfl
  | cons c cs ih =>
    rw [List.flatMap_cons, reencode_encodeRune_append _ _ (validRune_char c), ih]
/-! ## The record of a full scan -/

theorem filterMap_token_sep (l : List Byte) :
    (l.map (fun c => Piece.sep c.val)).filterMap Piece.token? = [] := by
  induction l with
  | nil => rfl
  | cons a l ih => rw [List.map_cons, List.filterMap_cons]; exact ih

theorem recordText_sep (l : List Byte) (h : ∀ c ∈ l, isSep c = true) :
    recordText (l.map (fun c => Piece.sep c.val)) = l := by
  induction l with
  | nil => rfl
  | cons a l ih =>
    have ha := isSep_ascii a (h a (List.mem_cons_self a l))
    have ih' := ih (fun c hc => h c (List.mem_cons_of_mem a hc))
    unfold recordText at ih' ⊢
    rw [List.map_cons, List.flatMap_cons, ih']
    simp [Piece.text, encodeRune_ascii a ha]

theorem mem_sep_pieces (l : List Byte) (h : ∀ c ∈ l, isSep c = true) (ch : Nat)
    (hm : Piece.sep ch ∈ l.map (fun c => Piece.sep c.val)) : ch = 0x20 ∨ ch = 0x3B := by
  rw [List.mem_map] at hm
  obtain ⟨c, hc, e⟩ := hm
  have := (isSep_iff c).1 (h c hc)
  injection e with e
  rw [← e]; exact this

theorem takeWhile_isSep_all (s : List Byte) : ∀ c ∈ s.takeWhile isSep, isSep c = true :=
  fun _ hc => List.mem_takeWhile_imp hc

theorem scanRecLoop_spec (fuel : Nat) :
    ∀ (lex : Lexer) (record : List Piece), lex.input.unread.length < fuel →
      ∃ rec1, scanRecLoop fuel lex record = some (record ++ rec1)
        ∧ rec1.filterMap Piece.token? = tokens lex.input.unread
        ∧ (∀ ch, Piece.sep ch ∈ rec1 → ch = 0x20 ∨ ch = 0x3B)
        ∧ recordText rec1 = reencode lex.input.unread := by
  induction fuel with
  | zero => intro lex record h; omega
  | succ fuel ih =>
    intro lex record h
    obtain ⟨lex1, e1, e2⟩ := TokenizeRecFuel_spec (lex.input.Len + 1) lex record
      (by rw [Buffer.Len_eq]; omega)
    have hall := takeWhile_isSep_all lex.input.unread
    rw [scanRecLoop, e1, tokens_eq, reencode_nextToken]
    by_cases ht : (nextToken lex.input.unread).1 = []
    · refine ⟨(lex.input.unread.takeWhile isSep).map (fun c => Piece.sep c.val), ?_, ?_, ?_, ?_⟩
      · simp [ht]
      · rw [if_pos ht]; exact filterMap_token_sep _
      · exact mem_sep_pieces _ hall
      · rw [recordText_sep _ hall, ht, nextToken_snd_of_fst_nil _ ht, reencode_nil]
        simp
    · have hne : lex.input.unread ≠ [] := by
        intro hs; apply ht; rw [hs]; rfl
      have hlt := nextToken_snd_length_lt _ hne
      obtain ⟨rec2, r1, r2, r3, r4⟩ := ih lex1
        (record ++ (lex.input.unread.takeWhile isSep).map (fun c => Piece.sep c.val)
          ++ [Piece.tok (nextToken lex.input.unread).1]) (by rw [e2]; omega)
      rw [e2] at r2 r4
      refine ⟨(lex.input.unread.takeWhile isSep).map (fun c => Piece.sep c.val)
        ++ [Piece.tok (nextToken lex.input.unread).1] ++ rec2, ?_, ?_, ?_, ?_⟩
      · simp only [ht, if_false]
        rw [r1]
        simp
      · rw [if_neg ht, List.filterMap_append, List.filterMap_append, filterMap_token_sep, r2]
        rfl
      · intro ch hm
        rw [List.mem_append, List.mem_append] at hm
        rcases hm with (hm | hm) | hm
        · exact mem_sep_pieces _ hall ch hm
        · simp at hm
        · exact r3 ch hm
      · unfold recordText at r4 ⊢
        rw [List.flatMap_append, List.flatMap_append, r4]
        have := recordText_sep _ hall
        unfold recordText at this
        rw [this]
        simp [Piece.text]

theorem scanRecord_spec (s : List Byte) :
    ∃ record, scanRecord s = some record
      ∧ record.filterMap Piece.token? = tokens s
      ∧ (∀ ch, Piece.sep ch ∈ record → ch = 0x20 ∨ ch = 0x3B)
      ∧ recordText record = reencode s := by
  obtain ⟨rec1, h1, h2, h3, h4⟩ := scanRecLoop_spec (s.length + 1) (NewLexer s) [] (by
    simp [NewLexer, Buffer.NewBufferString, Buffer.unread])
  exact ⟨rec1, by simpa [scanRecord] using h1, h2, h3, h4⟩
/-! ## The shape of one token -/

theorem isIdent_of_letter (c : Byte) (h : is_letter c.val = true) : isIdent c = true := by
  simp [isIdent, h]

theorem isIdent_of_digit (c : Byte) (h : is_digit c.val = true) : isIdent c = true := by
  simp [isIdent, h]

theorem not_letter_of_digit (ch : Nat) (h : is_digit ch = true) : is_letter ch = false := by
  rw [is_digit_iff] at h
  rw [Bool.eq_false_iff, Ne, is_letter_iff]; omega

theorem lexOne_letter (c : Byte) (rest : List Byte) (h : is_letter c.val = true) :
    lexOne c rest = (c :: rest.takeWhile isIdent, rest.dropWhile isIdent) := by
  rw [lexOne, if_pos h, List.takeWhile_cons, List.dropWhile_cons,
    if_pos (isIdent_of_letter c h), if_pos (isIdent_of_letter c h)]

theorem lexOne_digit (c : Byte) (rest : List Byte) (h : is_digit c.val = true) :
    lexOne c rest = (c :: rest.takeWhile isDig, rest.dropWhile isDig) := by
  have hl : ¬ is_letter c.val = true := by simp [not_letter_of_digit c.val h]
  have hd : isDig c = true := h
  rw [lexOne, if_neg hl, if_pos h, List.takeWhile_cons, List.dropWhile_cons, if_pos hd, if_pos hd]

theorem lexOne_other (c : Byte) (rest : List Byte) (hl : is_letter c.val = false)
    (hd : is_digit c.val = false) :
    lexOne c rest
      = (encodeRune (decodeRune (c :: rest)).1, (c :: rest).drop (decodeRune (c :: rest)).2) := by
  rw [lexOne, if_neg (by simp [hl]), if_neg (by simp [hd])]

theorem lexOne_other_ascii (c : Byte) (rest : List Byte) (hl : is_letter c.val = false)
    (hd : is_digit c.val = false) (hc : c.val < 0x80) :
    lexOne c rest = ([c], rest) := by
  rw [lexOne_other c rest hl hd, decodeRune_ascii c rest hc, encodeRune_ascii c hc]
  rfl

/-- The first byte of a token is a letter, or a digit, exactly when the first
unread byte it was read from is. -/
theorem lexOne_head (c : Byte) (rest : List Byte) (c1 : Byte) (t : List Byte)
    (h : (lexOne c rest).1 = c1 :: t) :
    is_letter c1.val = is_letter c.val ∧ is_digit c1.val = is_digit c.val := by
  by_cases hl : is_letter c.val = true
  · rw [lexOne_letter c rest hl] at h
    injection h with h1 _
    rw [h1]; exact ⟨rfl, rfl⟩
  · have hl' : is_letter c.val = false := by simpa using hl
    by_cases hd : is_digit c.val = true
    · rw [lexOne_digit c rest hd] at h
      injection h with h1 _
      rw [h1]; exact ⟨rfl, rfl⟩
    · have hd' : is_digit c.val = false := by simpa using hd
      by_cases hc : c.val < 0x80
      · rw [lexOne_other_ascii c rest hl' hd' hc] at h
        injection h with h1 _
        rw [h1]; exact ⟨rfl, rfl⟩
      · rw [lexOne_other c rest hl' hd'] at h
        have hmem : c1 ∈ encodeRune (decodeRune (c :: rest)).1 := by
          have h' : encodeRune (decodeRune (c :: rest)).1 = c1 :: t := h
          rw [h']; exact List.mem_cons_self _ _
        have hge := encodeRune_nonascii _ (decodeRune_nonascii c rest hc) c1 hmem
        have h1 := not_ident_of_nonascii c1.val hge
        rw [h1.1, h1.2, hl', hd']
        exact ⟨rfl, rfl⟩

theorem dropWhile_head_not (p : Byte → Bool) (l : List Byte) (c : Byte) (r : List Byte)
    (h : l.dropWhile p = c :: r) : p c = false := by
  induction l with
  | nil => simp at h
  | cons a l ih =>
    rw [List.dropWhile_cons] at h
    by_cases ha : p a = true
    · rw [if_pos ha] at h; exact ih h
    · rw [if_neg ha] at h
      injection h with h1 _
      rw [← h1]; simpa using ha

/-- Maximal munch, on the unread bytes: after an identifier the next byte
continues no identifier, after a number the next byte is no digit. -/
theorem nextToken_munch (s : List Byte) (c1 : Byte) (t : List Byte)
    (h : (nextToken s).1 = c1 :: t) (c2 : Byte) (r : List Byte)
    (h2 : (nextToken s).2 = c2 :: r) :
    (is_letter c1.val = true → isIdent c2 = false)
      ∧ (is_digit c1.val = true → isDig c2 = false) := by
  induction s with
  | nil => simp [nextToken] at h
  | cons c rest ih =>
    rw [nextToken] at h h2
    by_cases hs : isSep c = true
    · rw [if_pos hs] at h h2; exact ih h h2
    · rw [if_neg hs] at h h2
      have hh := lexOne_head c rest c1 t h
      constructor
      · intro hl
        rw [hh.1] at hl
        rw [lexOne_letter c rest hl] at h2
        exact dropWhile_head_not isIdent rest c2 r h2
      · intro hd
        rw [hh.2] at hd
        rw [lexOne_digit c rest hd] at h2
        exact dropWhile_head_not isDig rest c2 r h2
/-! ## Separators never reach a token -/

theorem isDig_isIdent (c : Byte) (h : isDig c = true) : isIdent c = true :=
  isIdent_of_digit c h

theorem not_isSep_of_isIdent (c : Byte) (h : isIdent c = true) : isSep c = false := by
  simp only [isIdent, Bool.or_eq_true, is_letter_iff, is_digit_iff] at h
  rw [Bool.eq_false_iff, Ne, isSep_iff]
  omega

theorem not_isSep_of_nonascii (c : Byte) (h : 0x80 ≤ c.val) : isSep c = false := by
  rw [Bool.eq_false_iff, Ne, isSep_iff]
  omega

theorem lexOne_no_sep (c : Byte) (rest : List Byte) (hs : isSep c = false) :
    ∀ b ∈ (lexOne c rest).1, isSep b = false := by
  intro b hb
  by_cases hl : is_letter c.val = true
  · rw [lexOne_letter c rest hl] at hb
    rcases List.mem_cons.1 hb with rfl | hb
    · exact hs
    · exact not_isSep_of_isIdent b (List.mem_takeWhile_imp hb)
  · have hl' : is_letter c.val = false := by simpa using hl
    by_cases hd : is_digit c.val = true
    · rw [lexOne_digit c rest hd] at hb
      rcases List.mem_cons.1 hb with rfl | hb
      · exact hs
      · exact not_isSep_of_isIdent b (isDig_isIdent b (List.mem_takeWhile_imp hb))
    · have hd' : is_digit c.val = false := by simpa using hd
      by_cases hc : c.val < 0x80
      · rw [lexOne_other_ascii c rest hl' hd' hc] at hb
        rw [List.mem_singleton.1 hb]; exact hs
      · rw [lexOne_other c rest hl' hd'] at hb
        exact not_isSep_of_nonascii b
          (encodeRune_nonascii _ (decodeRune_nonascii c rest hc) b hb)

theorem nextToken_no_sep (s : List Byte) : ∀ b ∈ (nextToken s).1, isSep b = false := by
  induction s with
  | nil => intro b hb; simp [nextToken] at hb
  | cons c rest ih =>
    rw [nextToken]
    by_cases hs : isSep c = true
    · rw [if_pos hs]; exact ih
    · rw [if_neg hs]; exact lexOne_no_sep c rest (by simpa using hs)
/-! ## Decoding looks only at continuation bytes -/

theorem decodeRune_second_ascii (c b1 : Byte) (t : List Byte) (h : b1.val < 0x80) :
    decodeRune (c :: b1 :: t) = decodeRune [c] := by
  have hl := acceptLo_cases c
  have hw := runeWidth_cases c
  have n3 : b1.val < acceptLo c ∨ acceptHi c < b1.val := by omega
  simp only [decodeRune, if_pos n3, List.length_cons, List.length_nil]
  split_ifs <;> rfl

theorem decodeRune_third_ascii (c b1 b2 : Byte) (t : List Byte) (h : b2.val < 0x80) :
    decodeRune (c :: b1 :: b2 :: t) = decodeRune [c, b1] := by
  have hw := runeWidth_cases c
  have n4 : b2.val < 0x80 ∨ 0xBF < b2.val := by omega
  simp only [decodeRune, if_pos n4, List.length_cons, List.length_nil]
  split_ifs <;> first | rfl | omega

theorem decodeRune_fourth_ascii (c b1 b2 b3 : Byte) (t : List Byte) (h : b3.val < 0x80) :
    decodeRune (c :: b1 :: b2 :: b3 :: t) = decodeRune [c, b1, b2] := by
  have hw := runeWidth_cases c
  have n5 : b3.val < 0x80 ∨ 0xBF < b3.val := by omega
  simp only [decodeRune, if_pos n5, List.length_cons, List.length_nil]
  split_ifs <;> first | rfl | omega

theorem decodeRune_four_prefix (c b1 b2 b3 : Byte) (t : List Byte) :
    decodeRune (c :: b1 :: b2 :: b3 :: t) = decodeRune [c, b1, b2, b3] := by
  have hw := runeWidth_cases c
  simp only [decodeRune, List.length_cons, List.length_nil]
  split_ifs <;> first | rfl | omega

/-- A map on bytes that leaves every non-ASCII byte alone and keeps ASCII bytes
ASCII does not change what the next rune decodes to. -/
theorem decodeRune_map (f : Byte → Byte) (hf1 : ∀ b : Byte, 0x80 ≤ b.val → f b = b)
    (hf2 : ∀ b : Byte, b.val < 0x80 → (f b).val < 0x80) (c : Byte) (rest : List Byte) :
    decodeRune (c :: rest.map f) = decodeRune (c :: rest) := by
  rcases rest with _ | ⟨b1, t1⟩
  · rfl
  rw [List.map_cons]
  by_cases h1 : b1.val < 0x80
  · rw [decodeRune_second_ascii c (f b1) _ (hf2 b1 h1), decodeRune_second_ascii c b1 _ h1]
  rw [hf1 b1 (by omega)]
  rcases t1 with _ | ⟨b2, t2⟩
  · rfl
  rw [List.map_cons]
  by_cases h2 : b2.val < 0x80
  · rw [decodeRune_third_ascii c b1 (f b2) _ (hf2 b2 h2), decodeRune_third_ascii c b1 b2 _ h2]
  rw [hf1 b2 (by omega)]
  rcases t2 with _ | ⟨b3, t3⟩
  · rfl
  rw [List.map_cons]
  by_cases h3 : b3.val < 0x80
  · rw [decodeRune_fourth_ascii c b1 b2 (f b3) _ (hf2 b3 h3),
      decodeRune_fourth_ascii c b1 b2 b3 _ h3]
  rw [hf1 b3 (by omega), decodeRune_four_prefix c b1 b2 b3 (t3.map f),
    decodeRune_four_prefix c b1 b2 b3 t3]

/-! ## Exchanging the two separators -/

theorem sepMap_fix_nonascii {f : Byte → Byte} (hf : SepMap f) (b : Byte) (h : 0x80 ≤ b.val) :
    f b = b :=
  (hf b).2 (not_isSep_of_nonascii b h)

theorem sepMap_ascii {f : Byte → Byte} (hf : SepMap f) (b : Byte) (h : b.val < 0x80) :
    (f b).val < 0x80 := by
  by_cases hs : isSep b = true
  · exact isSep_ascii _ ((hf b).1 hs)
  · rw [(hf b).2 (by simpa using hs)]; exact h

theorem sepMap_isIdent {f : Byte → Byte} (hf : SepMap f) (b : Byte) :
    isIdent (f b) = isIdent b := by
  by_cases hs : isSep b = true
  · have h1 : isIdent (f b) = false := by
      by_contra h
      have := not_isSep_of_isIdent (f b) (by simpa using h)
      rw [(hf b).1 hs] at this
      exact absurd this (by decide)
    have h2 : isIdent b = false := by
      by_contra h
      have := not_isSep_of_isIdent b (by simpa using h)
      rw [hs] at this
      exact absurd this (by decide)
    rw [h1, h2]
  · rw [(hf b).2 (by simpa using hs)]

theorem sepMap_isDig {f : Byte → Byte} (hf : SepMap f) (b : Byte) :
    isDig (f b) = isDig b := by
  by_cases hs : isSep b = true
  · have h1 : isDig (f b) = false := by
      by_contra h
      have := not_isSep_of_isIdent (f b) (isDig_isIdent _ (by simpa using h))
      rw [(hf b).1 hs] at this
      exact absurd this (by decide)
    have h2 : isDig b = false := by
      by_contra h
      have := not_isSep_of_isIdent b (isDig_isIdent _ (by simpa using h))
      rw [hs] at this
      exact absurd this (by decide)
    rw [h1, h2]
  · rw [(hf b).2 (by simpa using hs)]

theorem takeWhile_map_fix (f : Byte → Byte) (p : Byte → Bool) (hp : ∀ b, p (f b) = p b)
    (hfix : ∀ b, p b = true → f b = b) (l : List Byte) :
    (l.map f).takeWhile p = l.takeWhile p := by
  induction l with
  | nil => rfl
  | cons a l ih =>
    rw [List.map_cons, List.takeWhile_cons, List.takeWhile_cons, hp a]
    by_cases ha : p a = true
    · rw [if_pos ha, if_pos ha, ih, hfix a ha]
    · rw [if_neg ha, if_neg ha]

theorem dropWhile_map_fix (f : Byte → Byte) (p : Byte → Bool) (hp : ∀ b, p (f b) = p b)
    (l : List Byte) :
    (l.map f).dropWhile p = (l.dropWhile p).map f := by
  induction l with
  | nil => rfl
  | cons a l ih =>
    rw [List.map_cons, List.dropWhile_cons, List.dropWhile_cons, hp a]
    by_cases ha : p a = true
    · rw [if_pos ha, if_pos ha, ih]
    · rw [if_neg ha, if_neg ha]; rfl

theorem lexOne_map (f : Byte → Byte) (hf : SepMap f) (c : Byte) (rest : List Byte) :
    lexOne c (rest.map f) = ((lexOne c rest).1, (lexOne c rest).2.map f) := by
  by_cases hl : is_letter c.val = true
  · rw [lexOne_letter c _ hl, lexOne_letter c _ hl,
      takeWhile_map_fix f isIdent (sepMap_isIdent hf)
        (fun b hb => (hf b).2 (not_isSep_of_isIdent b hb)),
      dropWhile_map_fix f isIdent (sepMap_isIdent hf)]
  · have hl' : is_letter c.val = false := by simpa using hl
    by_cases hd : is_digit c.val = true
    · rw [lexOne_digit c _ hd, lexOne_digit c _ hd,
        takeWhile_map_fix f isDig (sepMap_isDig hf)
          (fun b hb => (hf b).2 (not_isSep_of_isIdent b (isDig_isIdent b hb))),
        dropWhile_map_fix f isDig (sepMap_isDig hf)]
    · have hd' : is_digit c.val = false := by simpa using hd
      by_cases hc : c.val < 0x80
      · rw [lexOne_other_ascii c _ hl' hd' hc, lexOne_other_ascii c _ hl' hd' hc]
      · have hfc : f c = c := sepMap_fix_nonascii hf c (by omega)
        rw [lexOne_other c _ hl' hd', lexOne_other c _ hl' hd',
          decodeRune_map f (sepMap_fix_nonascii hf) (sepMap_ascii hf) c rest]
        congr 1
        rw [List.map_drop, List.map_cons, hfc]

theorem nextToken_map (f : Byte → Byte) (hf : SepMap f) (s : List Byte) :
    nextToken (s.map f) = ((nextToken s).1, (nextToken s).2.map f) := by
  induction s with
  | nil => rfl
  | cons c rest ih =>
    rw [List.map_cons]
    by_cases hs : isSep c = true
    · rw [nextToken, nextToken, if_pos ((hf c).1 hs), if_pos hs, ih]
    · have hs' : isSep c = false := by simpa using hs
      rw [(hf c).2 hs', nextToken, nextToken, if_neg hs, if_neg hs, lexOne_map f hf]

theorem tokens_map (f : Byte → Byte) (hf : SepMap f) (n : Nat) :
    ∀ s : List Byte, s.length ≤ n → tokens (s.map f) = tokens s := by
  induction n with
  | zero =>
    intro s h
    have : s = [] := List.length_eq_zero.1 (Nat.le_zero.1 h)
    rw [this]; rfl
  | succ n ih =>
    intro s h
    rw [tokens_eq, tokens_eq s, nextToken_map f hf]
    by_cases ht : (nextToken s).1 = []
    · rw [if_pos ht, if_pos ht]
    · have hne : s ≠ [] := by
        intro hs; apply ht; rw [hs]; rfl
      have hlt := nextToken_snd_length_lt s hne
      rw [if_neg ht, if_neg ht, ih _ (by omega)]

theorem sepMap_semicolon_to_space :
    SepMap (fun c : Byte => if c = 0x3B then 0x20 else c) := by
  intro c
  show (isSep c = true → isSep (if c = 0x3B then 0x20 else c) = true)
    ∧ (isSep c = false → (if c = 0x3B then 0x20 else c) = c)
  constructor
  · intro _
    by_cases h : c = 0x3B
    · rw [if_pos h]; decide
    · rw [if_neg h]; assumption
  · intro hs
    have : c ≠ 0x3B := by
      intro h; rw [h] at hs; revert hs; decide
    rw [if_neg this]

theorem sepMap_space_to_semicolon :
    SepMap (fun c : Byte => if c = 0x20 then 0x3B else c) := by
  intro c
  show (isSep c = true → isSep (if c = 0x20 then 0x3B else c) = true)
    ∧ (isSep c = false → (if c = 0x20 then 0x3B else c) = c)
  constructor
  · intro _
    by_cases h : c = 0x20
    · rw [if_pos h]; decide
    · rw [if_neg h]; assumption
  · intro hs
    have : c ≠ 0x20 := by
      intro h; rw [h] at hs; revert hs; decide
    rw [if_neg this]

/-! ## Structural and operator characters -/

theorem isStructOrOp_class (c : Byte) (h : isStructOrOp c = true) :
    isSep c = false ∧ is_letter c.val = false ∧ is_digit c.val = false ∧ c.val < 0x80 := by
  simp only [isStructOrOp, Bool.or_eq_true, beq_iff_eq] at h
  refine ⟨?_, ?_, ?_, ?_⟩
  · rw [Bool.eq_false_iff, Ne, isSep_iff]; omega
  · rw [Bool.eq_false_iff, Ne, is_letter_iff]; omega
  · rw [Bool.eq_false_iff, Ne, is_digit_iff]; omega
  · omega

theorem tokens_structOrOp (s : List Byte) (h : ∀ c ∈ s, isStructOrOp c = true) :
    tokens s = s.map (fun c => [c]) := by
  induction s with
  | nil => exact tokens_nil
  | cons c rest ih =>
    obtain ⟨h1, h2, h3, h4⟩ := isStructOrOp_class c (h c (List.mem_cons_self c rest))
    rw [tokens_cons c rest h1, lexOne_other_ascii c rest h2 h3 h4,
      ih (fun b hb => h b (List.mem_cons_of_mem c hb))]
    rfl

/-! ## Runs -/

theorem takeWhile_append_all (p : Byte → Bool) (l r : List Byte) (h : ∀ c ∈ l, p c = true) :
    (l ++ r).takeWhile p = l ++ r.takeWhile p := by
  induction l with
  | nil => rfl
  | cons a l ih =>
    rw [List.cons_append, List.takeWhile_cons, if_pos (h a (List.mem_cons_self a l)),
      ih (fun c hc => h c (List.mem_cons_of_mem a hc))]
    rfl

theorem dropWhile_append_all (p : Byte → Bool) (l r : List Byte) (h : ∀ c ∈ l, p c = true) :
    (l ++ r).dropWhile p = r.dropWhile p := by
  induction l with
  | nil => rfl
  | cons a l ih =>
    rw [List.cons_append, List.dropWhile_cons, if_pos (h a (List.mem_cons_self a l)),
      ih (fun c hc => h c (List.mem_cons_of_mem a hc))]

theorem takeWhile_all (p : Byte → Bool) (l : List Byte) (h : ∀ c ∈ l, p c = true) :
    l.takeWhile p = l := by
  have := takeWhile_append_all p l [] h
  simpa using this

theorem dropWhile_all (p : Byte → Bool) (l : List Byte) (h : ∀ c ∈ l, p c = true) :
    l.dropWhile p = [] := by
  have := dropWhile_append_all p l [] h
  simpa using this

/-- An identifier run that ends the input is one token. -/
theorem tokens_ident_run (c0 : Byte) (t : List Byte) (hl : is_letter c0.val = true)
    (ht : ∀ c ∈ t, isIdent c = true) : tokens (c0 :: t) = [c0 :: t] := by
  rw [tokens_cons c0 t (not_isSep_of_isIdent c0 (isIdent_of_letter c0 hl)),
    lexOne_letter c0 t hl, takeWhile_all isIdent t ht, dropWhile_all isIdent t ht, tokens_nil]

/-- A digit run followed by something that is no digit is one token. -/
theorem tokens_digit_run (d0 : Byte) (dt : List Byte) (r : List Byte)
    (h0 : is_digit d0.val = true) (hd : ∀ c ∈ dt, isDig c = true)
    (hr : ∀ c r1, r = c :: r1 → isDig c = false) :
    tokens (d0 :: (dt ++ r)) = (d0 :: dt) :: tokens r := by
  have hrt : r.takeWhile isDig = [] := by
    cases r with
    | nil => rfl
    | cons c r1 => rw [List.takeWhile_cons, hr c r1 rfl]; rfl
  have hrd : r.dropWhile isDig = r := by
    cases r with
    | nil => rfl
    | cons c r1 => rw [List.dropWhile_cons, hr c r1 rfl]; rfl
  rw [tokens_cons d0 _ (not_isSep_of_isIdent d0 (isIdent_of_digit d0 h0)),
    lexOne_digit d0 _ h0, takeWhile_append_all isDig dt r hd, dropWhile_append_all isDig dt r hd,
    hrt, hrd, List.append_nil]

/-! ## Counting runes and tokens -/

theorem runeCountSkip_eq_drop (l : List Byte) :
    ∀ k, runeCountSkip k l = RuneCount (l.drop k) := by
  induction l with
  | nil => intro k; simp [RuneCount, runeCountSkip]
  | cons a l ih =>
    intro k
    cases k with
    | zero => rfl
    | succ k => rw [runeCountSkip, ih k]; rfl

theorem RuneCount_nil : RuneCount [] = 0 := rfl

theorem RuneCount_cons (c : Byte) (rest : List Byte) :
    RuneCount (c :: rest) = 1 + RuneCount ((c :: rest).drop (decodeRune (c :: rest)).2) := by
  have hsz := (decodeRune_size c rest).1
  obtain ⟨k, hk⟩ : ∃ k, (decodeRune (c :: rest)).2 = k + 1 := ⟨_, (Nat.sub_add_cancel hsz).symm⟩
  rw [RuneCount, runeCountSkip, runeCountSkip_eq_drop, hk]
  rfl

theorem RuneCount_ascii_cons (c : Byte) (rest : List Byte) (h : c.val < 0x80) :
    RuneCount (c :: rest) = 1 + RuneCount rest := by
  rw [RuneCount_cons, decodeRune_ascii c rest h]
  rfl

theorem runeCountSkip_le_length (l : List Byte) : ∀ k, runeCountSkip k l ≤ l.length := by
  induction l with
  | nil => intro k; simp [runeCountSkip]
  | cons a l ih =>
    intro k
    cases k with
    | zero =>
      rw [runeCountSkip]
      have := ih ((decodeRune (a :: l)).2 - 1)
      simp only [List.length_cons]; omega
    | succ k =>
      rw [runeCountSkip]
      have := ih k
      simp only [List.length_cons]; omega

theorem RuneCount_le_length (s : List Byte) : RuneCount s ≤ s.length :=
  runeCountSkip_le_length s 0

theorem RuneCount_dropWhile_le (p : Byte → Bool) (hp : ∀ c, p c = true → c.val < 0x80)
    (l : List Byte) : RuneCount (l.dropWhile p) ≤ RuneCount l := by
  induction l with
  | nil => exact le_refl _
  | cons a l ih =>
    rw [List.dropWhile_cons]
    by_cases ha : p a = true
    · rw [if_pos ha, RuneCount_ascii_cons a l (hp a ha)]; omega
    · rw [if_neg ha]

theorem RuneCount_lexOne (c : Byte) (rest : List Byte) :
    RuneCount (lexOne c rest).2 + 1 ≤ RuneCount (c :: rest) := by
  by_cases hl : is_letter c.val = true
  · have hc := isIdent_ascii c (isIdent_of_letter c hl)
    have := RuneCount_dropWhile_le isIdent isIdent_ascii rest
    rw [lexOne_letter c rest hl, RuneCount_ascii_cons c rest hc]
    show RuneCount (rest.dropWhile isIdent) + 1 ≤ _
    omega
  · have hl' : is_letter c.val = false := by simpa using hl
    by_cases hd : is_digit c.val = true
    · have hc := isDig_ascii c hd
      have := RuneCount_dropWhile_le isDig isDig_ascii rest
      rw [lexOne_digit c rest hd, RuneCount_ascii_cons c rest hc]
      show RuneCount (rest.dropWhile isDig) + 1 ≤ _
      omega
    · have hd' : is_digit c.val = false := by simpa using hd
      rw [lexOne_other c rest hl' hd', RuneCount_cons c rest]
      show RuneCount ((c :: rest).drop _) + 1 ≤ _
      omega

theorem RuneCount_nextToken (s : List Byte) (h : s ≠ []) :
    RuneCount (nextToken s).2 + 1 ≤ RuneCount s := by
  induction s with
  | nil => exact absurd rfl h
  | cons c rest ih =>
    rw [nextToken]
    by_cases hs : isSep c = true
    · rw [if_pos hs, RuneCount_ascii_cons c rest (isSep_ascii c hs)]
      cases rest with
      | nil => simp [nextToken, RuneCount_nil]
      | cons a l =>
        have := ih (by simp)
        omega
    · rw [if_neg hs]; exact RuneCount_lexOne c rest

theorem tokens_facts (n : Nat) :
    ∀ s : List Byte, s.length ≤ n →
      (∀ t ∈ tokens s, t ≠ []) ∧ (tokens s).length ≤ RuneCount s := by
  induction n with
  | zero =>
    intro s h
    have : s = [] := List.length_eq_zero.1 (Nat.le_zero.1 h)
    rw [this, tokens_nil]
    exact ⟨fun t ht => absurd ht (List.not_mem_nil t), Nat.zero_le _⟩
  | succ n ih =>
    intro s h
    rw [tokens_eq]
    by_cases ht : (nextToken s).1 = []
    · rw [if_pos ht]
      exact ⟨fun t ht => absurd ht (List.not_mem_nil t), Nat.zero_le _⟩
    · have hne : s ≠ [] := by
        intro hs; apply ht; rw [hs]; rfl
      have hlt := nextToken_snd_length_lt s hne
      have hrc := RuneCount_nextToken s hne
      obtain ⟨i1, i2⟩ := ih (nextToken s).2 (by omega)
      rw [if_neg ht]
      constructor
      · intro t hm
        rcases List.mem_cons.1 hm with rfl | hm
        · exact ht
        · exact i1 t hm
      · simp only [List.length_cons]; omega

/-! ## The end of the input -/

theorem TokenizeFuel_empty (fuel : Nat) :
    ∀ (lex lex1 : Lexer), lex.input.unread.length < fuel →
      Lexer.TokenizeFuel fuel lex = some ([], lex1) → lex1 = ⟨⟨[], 0, 0⟩⟩ := by
  induction fuel with
  | zero => intro lex lex1 h; omega
  | succ fuel ih =>
    intro lex lex1 h e
    cases hu : lex.input.unread with
    | nil =>
      rw [TokenizeFuel_nil fuel lex hu] at e
      injection e with e
      injection e with _ e2
      exact e2.symm
    | cons c rest =>
      by_cases hs : isSep c = true
      · have hrest : (⟨lex.input.buf, lex.input.off + 1, 1⟩ : Buffer).unread = rest := by
          rw [Buffer.unread_advance, hu]; rfl
        rw [TokenizeFuel_sep fuel lex c rest hu hs] at e
        refine ih _ lex1 ?_ e
        rw [hrest]
        rw [hu] at h
        simp only [List.length_cons] at h
        omega
      · obtain ⟨lex2, e1, _⟩ := TokenizeFuel_spec (fuel + 1) lex h
        rw [e1, hu, nextToken, if_neg hs] at e
        injection e with e
        injection e with e _
        exact absurd e (lexOne_fst_ne_nil c rest)

theorem Tokenize_exhausted : (⟨⟨[], 0, 0⟩⟩ : Lexer).Tokenize = some ([], ⟨⟨[], 0, 0⟩⟩) := rfl

theorem afterCalls_exhausted (n : Nat) :
    Lexer.afterCalls n ⟨⟨[], 0, 0⟩⟩ = some ⟨⟨[], 0, 0⟩⟩ := by
  induction n with
  | zero => rfl
  | succ n ih => rw [Lexer.afterCalls, Tokenize_exhausted]; exact ih

theorem isSep_iff_eq (c : Byte) : isSep c = true ↔ c = 0x20 ∨ c = 0x3B := by
  rw [isSep_iff]
  constructor
  · rintro (h | h)
    · left; exact Fin.ext h
    · right; exact Fin.ext h
  · rintro (h | h)
    · left; rw [h]; rfl
    · right; rw [h]; rfl

/-! ## The fallback token -/

theorem nextToken_rune (r : Nat) (rest : List Byte) (hv : validRune r = true)
    (hs : r ≠ 0x20 ∧ r ≠ 0x3B) (hl : is_letter r = false) (hd : is_digit r = false) :
    nextToken (encodeRune r ++ rest) = (encodeRune r, rest) := by
  have hdec := decodeRune_encodeRune r rest hv
  cases he : encodeRune r with
  | nil => exact absurd he (encodeRune_ne_nil r)
  | cons c0 tl =>
    rw [he] at hdec
    rw [List.cons_append] at hdec ⊢
    have hcls : isSep c0 = false ∧ is_letter c0.val = false ∧ is_digit c0.val = false := by
      by_cases hc : c0.val < 0x80
      · rw [decodeRune_ascii c0 _ hc] at hdec
        have hr : c0.val = r := congrArg Prod.fst hdec
        refine ⟨?_, by rw [hr]; exact hl, by rw [hr]; exact hd⟩
        rw [Bool.eq_false_iff, Ne, isSep_iff, hr]
        omega
      · have h := not_ident_of_nonascii c0.val (by omega)
        exact ⟨not_isSep_of_nonascii c0 (by omega), h.1, h.2⟩
    rw [nextToken, if_neg (by simp [hcls.1]), lexOne_other c0 _ hcls.2.1 hcls.2.2, hdec]
    show (encodeRune r, List.drop (c0 :: tl).length (c0 :: tl ++ rest)) = _
    rw [List.drop_left, he]

/-! ## Every pushback succeeds -/

theorem Buffer.UnreadRune_after_ReadRune (b : Buffer) (r : Nat × Nat) (b1 : Buffer)
    (h : b.ReadRune = (some r, b1)) :
    b1.UnreadRune = (true, ⟨b.buf, b.off, 0⟩) := by
  cases hu : b.unread with
  | nil => rw [Buffer.ReadRune_nil b hu] at h; simp at h
  | cons c rest =>
    rw [Buffer.ReadRune_cons b c rest hu] at h
    have h2 : b1 = ⟨b.buf, b.off + (decodeRune (c :: rest)).2, (decodeRune (c :: rest)).2⟩ :=
      (congrArg Prod.snd h).symm
    rw [h2]
    exact Buffer.UnreadRune_advance b _ (decodeRune_size c rest).1

theorem readIdentifierLoopOk_eq (fuel : Nat) :
    ∀ (b : Buffer) (acc : List Byte),
      readIdentifierLoopOk fuel b acc
        = (readIdentifierLoop fuel b acc).map (fun p => (p.1, p.2, true)) := by
  induction fuel with
  | zero => intro b acc; rfl
  | succ fuel ih =>
    intro b acc
    rw [readIdentifierLoopOk, readIdentifierLoop]
    cases hr : b.ReadRune with
    | mk o b1 =>
      cases o with
      | none => rfl
      | some r =>
        have hun := Buffer.UnreadRune_after_ReadRune b r b1 hr
        simp only
        by_cases hc : (!is_letter r.1 && !is_digit r.1) = true
        · rw [if_pos hc, if_pos hc, hun]; rfl
        · rw [if_neg hc, if_neg hc]; exact ih _ _

theorem readNumberLoopOk_eq (fuel : Nat) :
    ∀ (b : Buffer) (acc : List Byte),
      readNumberLoopOk fuel b acc
        = (readNumberLoop fuel b acc).map (fun p => (p.1, p.2, true)) := by
  induction fuel with
  | zero => intro b acc; rfl
  | succ fuel ih =>
    intro b acc
    rw [readNumberLoopOk, readNumberLoop]
    cases hr : b.ReadRune with
    | mk o b1 =>
      cases o with
      | none => rfl
      | some r =>
        have hun := Buffer.UnreadRune_after_ReadRune b r b1 hr
        simp only
        by_cases hc : (!is_digit r.1) = true
        · rw [if_pos hc, if_pos hc, hun]; rfl
        · rw [if_neg hc, if_neg hc]; exact ih _ _

theorem readIdentifierOk_eq (lex : Lexer) :
    lex.readIdentifierOk = lex.readIdentifier.map (fun p => (p.1, p.2, true)) := by
  rw [Lexer.readIdentifierOk, Lexer.readIdentifier, readIdentifierLoopOk_eq]
  cases readIdentifierLoop (lex.input.Len + 1) lex.input [] <;> rfl


/-! ## The three shapes of a token -/

theorem decodeRune_valid (c : Byte) (rest : List Byte) :
    validRune (decodeRune (c :: rest)).1 = true := by
  have hw := runeWidth_cases c
  have hl := acceptLo_cases c
  have hh := acceptHi_cases c
  simp only [validRune, Bool.or_eq_true, Bool.and_eq_true, decide_eq_true_eq]
  rcases rest with _ | ⟨b1, _ | ⟨b2, _ | ⟨b3, t⟩⟩⟩
  all_goals simp only [decodeRune, List.length_cons, List.length_nil]
  all_goals split_ifs
  all_goals simp only [RuneError]
  all_goals omega

theorem all_takeWhile (p : Byte → Bool) (l : List Byte) : (l.takeWhile p).all p = true := by
  rw [List.all_eq_true]
  intro b hb
  exact List.mem_takeWhile_imp hb

theorem identifierShape_head (c : Byte) (t : List Byte) (h : identifierShape (c :: t) = true) :
    is_letter c.val = true := by
  simp only [identifierShape, Bool.and_eq_true] at h
  exact h.1

theorem numberShape_head (c : Byte) (t : List Byte) (h : numberShape (c :: t) = true) :
    is_digit c.val = true := by
  simp only [numberShape, List.all_cons, Bool.and_eq_true] at h
  exact h.2.1

theorem singleShape_head (c : Byte) (t : List Byte) (h : singleShape (c :: t) = true) :
    is_letter c.val = false ∧ is_digit c.val = false := by
  simp only [singleShape, Bool.and_eq_true, Bool.not_eq_true'] at h
  have hid := decodeRune_isIdent c t
  rw [h.1.1.1.2, h.1.1.2] at hid
  simp only [isIdent, Bool.or_self] at hid
  exact Bool.or_eq_false_iff.1 hid.symm

theorem singleShape_encodeRune (r : Nat) (hv : validRune r = true) (hl : is_letter r = false)
    (hd : is_digit r = false) (hs : r ≠ 0x20 ∧ r ≠ 0x3B) :
    singleShape (encodeRune r) = true := by
  have hdec := decodeRune_encodeRune r [] hv
  rw [List.append_nil] at hdec
  simp only [singleShape, hdec, hl, hd, beq_self_eq_true, Bool.not_false, Bool.and_self,
    Bool.true_and, Bool.and_eq_true, bne_iff_ne, ne_eq]
  exact ⟨hs.1, hs.2⟩

/-- The token read at a first unread byte that is no separator has one of the
three shapes, according to the class of that byte. -/
theorem lexOne_shape (c : Byte) (rest : List Byte) (hs : isSep c = false) :
    (is_letter c.val = true → identifierShape (lexOne c rest).1 = true)
      ∧ (is_digit c.val = true → numberShape (lexOne c rest).1 = true)
      ∧ (is_letter c.val = false → is_digit c.val = false →
          singleShape (lexOne c rest).1 = true) := by
  refine ⟨?_, ?_, ?_⟩
  · intro hl
    rw [lexOne_letter c rest hl]
    simp only [identifierShape, hl, all_takeWhile, Bool.and_self]
  · intro hd
    rw [lexOne_digit c rest hd]
    have hd' : isDig c = true := hd
    simp only [numberShape, List.isEmpty_cons, Bool.not_false, List.all_cons, hd',
      all_takeWhile, Bool.and_self]
  · intro hl hd
    rw [lexOne_other c rest hl hd]
    apply singleShape_encodeRune _ (decodeRune_valid c rest)
    · have := decodeRune_isIdent c rest
      simp only [isIdent, hl, hd, Bool.or_self] at this
      exact (Bool.or_eq_false_iff.1 this).1
    · have := decodeRune_isIdent c rest
      simp only [isIdent, hl, hd, Bool.or_self] at this
      exact (Bool.or_eq_false_iff.1 this).2
    · have h := (decodeRune_fst_sep c rest).not
      rw [hs] at h
      have h' := h.2 (by decide)
      exact ⟨fun e => h' (Or.inl e), fun e => h' (Or.inr e)⟩

theorem shapes_exclusive (tok : Token) :
    ¬ (identifierShape tok = true ∧ numberShape tok = true)
      ∧ ¬ (identifierShape tok = true ∧ singleShape tok = true)
      ∧ ¬ (numberShape tok = true ∧ singleShape tok = true) := by
  cases tok with
  | nil => simp [identifierShape, numberShape]
  | cons c t =>
    refine ⟨?_, ?_, ?_⟩
    · rintro ⟨h1, h2⟩
      have a := identifierShape_head c t h1
      have b := not_letter_of_digit c.val (numberShape_head c t h2)
      rw [a] at b; exact absurd b (by decide)
    · rintro ⟨h1, h2⟩
      have a := identifierShape_head c t h1
      have b := (singleShape_head c t h2).1
      rw [a] at b; exact absurd b (by decide)
    · rintro ⟨h1, h2⟩
      have a := numberShape_head c t h1
      have b := (singleShape_head c t h2).2
      rw [a] at b; exact absurd b (by decide)

theorem nextToken_shape (s : List Byte) (h : (nextToken s).1 ≠ []) :
    identifierShape (nextToken s).1 = true ∨ numberShape (nextToken s).1 = true
      ∨ singleShape (nextToken s).1 = true := by
  induction s with
  | nil => exact absurd rfl h
  | cons c rest ih =>
    rw [nextToken] at h ⊢
    by_cases hs : isSep c = true
    · rw [if_pos hs] at h ⊢; exact ih h
    · rw [if_neg hs]
      obtain ⟨s1, s2, s3⟩ := lexOne_shape c rest (by simpa using hs)
      by_cases hl : is_letter c.val = true
      · exact Or.inl (s1 hl)
      · by_cases hd : is_digit c.val = true
        · exact Or.inr (Or.inl (s2 hd))
        · exact Or.inr (Or.inr (s3 (by simpa using hl) (by simpa using hd)))

/-! ## A run that ends the input -/

theorem nextToken_ident_run (c0 : Byte) (t : List Byte) (hl : is_letter c0.val = true)
    (ht : ∀ c ∈ t, isIdent c = true) : nextToken (c0 :: t) = (c0 :: t, []) := by
  rw [nextToken, if_neg (by simp [not_isSep_of_isIdent c0 (isIdent_of_letter c0 hl)]),
    lexOne_letter c0 t hl, takeWhile_all isIdent t ht, dropWhile_all isIdent t ht]

theorem nextToken_digit_all (d0 : Byte) (dt : List Byte) (h0 : is_digit d0.val = true)
    (hd : ∀ c ∈ dt, isDig c = true) : nextToken (d0 :: dt) = (d0 :: dt, []) := by
  rw [nextToken, if_neg (by simp [not_isSep_of_isIdent d0 (isIdent_of_digit d0 h0)]),
    lexOne_digit d0 dt h0, takeWhile_all isDig dt hd, dropWhile_all isDig dt hd]

/-- When one `Tokenize` call consumes the whole input as the token `tok`, the
call returns `tok` and the next call returns the empty token. -/
theorem Tokenize_whole_input (s tok : List Byte) (h : nextToken s = (tok, [])) :
    ∃ lex1 lex2, (NewLexer s).Tokenize = some (tok, lex1)
      ∧ lex1.Tokenize = some ([], lex2) := by
  obtain ⟨lex1, e1, e2⟩ := Tokenize_spec (NewLexer s)
  have hu : (NewLexer s).input.unread = s := rfl
  rw [hu, h] at e1 e2
  obtain ⟨lex2, e3, _⟩ := Tokenize_spec lex1
  rw [e2] at e3
  exact ⟨lex1, lex2, e1, e3⟩

/-! ## The cursor moves forward -/

theorem lexOne_snd_suffix (c : Byte) (rest : List Byte) :
    List.IsSuffix (lexOne c rest).2 (c :: rest) := by
  unfold lexOne
  split_ifs
  · exact List.dropWhile_suffix isIdent
  · exact List.dropWhile_suffix isDig
  · exact List.drop_suffix _ _

theorem nextToken_snd_suffix (s : List Byte) : List.IsSuffix (nextToken s).2 s := by
  induction s with
  | nil => exact List.suffix_refl _
  | cons c rest ih =>
    rw [nextToken]
    split_ifs
    · exact List.IsSuffix.trans ih (List.suffix_cons c rest)
    · exact lexOne_snd_suffix c rest

/-! ## The underscore -/

theorem underscore_class :
    isSep (0x5F : Byte) = false ∧ is_letter (0x5F : Byte).val = false
      ∧ is_digit (0x5F : Byte).val = false ∧ (0x5F : Byte).val < 0x80
      ∧ isIdent (0x5F : Byte) = false := by
  decide

theorem tokens_underscore (u0 : Byte) (ut : List Byte) (v0 : Byte) (vt : List Byte)
    (hu0 : is_letter u0.val = true) (hut : ∀ c ∈ ut, isIdent c = true)
    (hv0 : is_letter v0.val = true) (hvt : ∀ c ∈ vt, isIdent c = true) :
    tokens (u0 :: (ut ++ 0x5F :: v0 :: vt)) = [u0 :: ut, [0x5F], v0 :: vt] := by
  obtain ⟨k1, k2, k3, k4, k5⟩ := underscore_class
  rw [tokens_cons u0 _ (not_isSep_of_isIdent u0 (isIdent_of_letter u0 hu0)),
    lexOne_letter u0 _ hu0, takeWhile_append_all isIdent ut _ hut,
    dropWhile_append_all isIdent ut _ hut, List.takeWhile_cons, List.dropWhile_cons, k5]
  simp only [Bool.false_eq_true, if_false, List.append_nil]
  rw [tokens_cons _ _ k1, lexOne_other_ascii _ _ k2 k3 k4, tokens_ident_run v0 vt hv0 hvt]

/-! ## Scanning across a separator -/

theorem decodeRune_append_ascii (c : Byte) (l : List Byte) (a : Byte) (q : List Byte)
    (ha : a.val < 0x80) : decodeRune (c :: (l ++ a :: q)) = decodeRune (c :: l) := by
  rcases l with _ | ⟨b1, _ | ⟨b2, _ | ⟨b3, t⟩⟩⟩
  · exact decodeRune_second_ascii c a q ha
  · exact decodeRune_third_ascii c b1 a q ha
  · exact decodeRune_fourth_ascii c b1 b2 a q ha
  · rw [List.cons_append, List.cons_append, List.cons_append, decodeRune_four_prefix,
      decodeRune_four_prefix c b1 b2 b3 t]

theorem takeWhile_append_stop (p : Byte → Bool) (l : List Byte) (a : Byte) (q : List Byte)
    (ha : p a = false) : (l ++ a :: q).takeWhile p = l.takeWhile p := by
  induction l with
  | nil => rw [List.nil_append, List.takeWhile_cons, ha]; rfl
  | cons b l ih =>
    rw [List.cons_append, List.takeWhile_cons, List.takeWhile_cons, ih]

theorem dropWhile_append_stop (p : Byte → Bool) (l : List Byte) (a : Byte) (q : List Byte)
    (ha : p a = false) : (l ++ a :: q).dropWhile p = l.dropWhile p ++ a :: q := by
  induction l with
  | nil => rw [List.nil_append, List.dropWhile_cons, ha]; rfl
  | cons b l ih =>
    rw [List.cons_append, List.dropWhile_cons, List.dropWhile_cons, ih]
    split_ifs <;> rfl

theorem not_isIdent_of_isSep (a : Byte) (h : isSep a = true) : isIdent a = false := by
  cases hi : isIdent a with
  | false => rfl
  | true => rw [not_isSep_of_isIdent a hi] at h; exact absurd h (by decide)

theorem not_isDig_of_isSep (a : Byte) (h : isSep a = true) : isDig a = false := by
  cases hi : isDig a with
  | false => rfl
  | true =>
    rw [not_isSep_of_isIdent a (isDig_isIdent a hi)] at h; exact absurd h (by decide)

theorem lexOne_append_sep (c : Byte) (rest : List Byte) (a : Byte) (q : List Byte)
    (ha : isSep a = true) :
    lexOne c (rest ++ a :: q) = ((lexOne c rest).1, (lexOne c rest).2 ++ a :: q) := by
  by_cases hl : is_letter c.val = true
  · rw [lexOne_letter c _ hl, lexOne_letter c _ hl,
      takeWhile_append_stop isIdent rest a q (not_isIdent_of_isSep a ha),
      dropWhile_append_stop isIdent rest a q (not_isIdent_of_isSep a ha)]
  · have hl' : is_letter c.val = false := by simpa using hl
    by_cases hd : is_digit c.val = true
    · rw [lexOne_digit c _ hd, lexOne_digit c _ hd,
        takeWhile_append_stop isDig rest a q (not_isDig_of_isSep a ha),
        dropWhile_append_stop isDig rest a q (not_isDig_of_isSep a ha)]
    · have hd' : is_digit c.val = false := by simpa using hd
      have hsz := (decodeRune_size c rest).2
      rw [lexOne_other c _ hl' hd', lexOne_other c _ hl' hd',
        decodeRune_append_ascii c rest a q (isSep_ascii a ha)]
      congr 1
      rw [← List.cons_append, List.drop_append_of_le_length hsz]

theorem tokens_append_sep (a : Byte) (q : List Byte) (ha : isSep a = true) (n : Nat) :
    ∀ s1 : List Byte, s1.length ≤ n → tokens (s1 ++ a :: q) = tokens s1 ++ tokens q := by
  induction n with
  | zero =>
    intro s1 h
    have : s1 = [] := List.length_eq_zero.1 (Nat.le_zero.1 h)
    rw [this, List.nil_append, tokens_sep a q ha, tokens_nil]; rfl
  | succ n ih =>
    intro s1 h
    cases s1 with
    | nil => rw [List.nil_append, tokens_sep a q ha, tokens_nil]; rfl
    | cons c rest =>
      simp only [List.length_cons] at h
      rw [List.cons_append]
      by_cases hs : isSep c = true
      · rw [tokens_sep c _ hs, tokens_sep c rest hs]
        exact ih rest (by omega)
      · have hs' : isSep c = false := by simpa using hs
        have hlen := lexOne_snd_length c rest
        rw [tokens_cons c _ hs', tokens_cons c rest hs', lexOne_append_sep c rest a q ha,
          ih (lexOne c rest).2 (by omega)]
        rfl

theorem tokens_seps_append (p s2 : List Byte) (hp : ∀ c ∈ p, isSep c = true) :
    tokens (p ++ s2) = tokens s2 := by
  induction p with
  | nil => rfl
  | cons a p ih =>
    rw [List.cons_append, tokens_sep a _ (hp a (List.mem_cons_self a p)),
      ih (fun c hc => hp c (List.mem_cons_of_mem a hc))]

/-! ## Tokens carry their text -/

theorem nextToken_of_dropWhile (s : List Byte) (c : Byte) (rest : List Byte)
    (h : s.dropWhile isSep = c :: rest) : nextToken s = lexOne c rest := by
  induction s with
  | nil => simp at h
  | cons a l ih =>
    rw [List.dropWhile_cons] at h
    rw [nextToken]
    by_cases ha : isSep a = true
    · rw [if_pos ha] at h ⊢; exact ih h
    · rw [if_neg ha] at h ⊢
      injection h with h1 h2
      rw [h1, h2]

/-- An identifier or a number is the text that stands in the input after the
separators the call discarded. -/
theorem nextToken_text (s : List Byte) (c1 : Byte) (t : List Byte)
    (h : (nextToken s).1 = c1 :: t) (hc : isIdent c1 = true) :
    s = s.takeWhile isSep ++ (nextToken s).1 ++ (nextToken s).2 := by
  induction s with
  | nil => simp [nextToken] at h
  | cons a l ih =>
    rw [nextToken] at h ⊢
    rw [List.takeWhile_cons]
    by_cases ha : isSep a = true
    · rw [if_pos ha] at h ⊢
      rw [if_pos ha, List.cons_append, List.cons_append, ← ih h]
    · rw [if_neg ha] at h ⊢
      rw [if_neg ha, List.nil_append]
      have hh := lexOne_head a l c1 t h
      simp only [isIdent, Bool.or_eq_true] at hc
      rcases hc with hl | hd
      · rw [hh.1] at hl
        rw [lexOne_letter a l hl]
        show a :: l = a :: (l.takeWhile isIdent ++ l.dropWhile isIdent)
        rw [List.takeWhile_append_dropWhile]
      · rw [hh.2] at hd
        rw [lexOne_digit a l hd]
        show a :: l = a :: (l.takeWhile isDig ++ l.dropWhile isDig)
        rw [List.takeWhile_append_dropWhile]

theorem lexOne_ne_MathOp (c : Byte) (rest : List Byte) : (lexOne c rest).1 ≠ MathOp := by
  intro h
  have e : MathOp = (0x2B : Byte) :: [0x2D, 0x2A, 0x2F] := by decide
  rw [e] at h
  have hh := lexOne_head c rest _ _ h
  have hl : is_letter c.val = false := by rw [← hh.1]; decide
  have hd : is_digit c.val = false := by rw [← hh.2]; decide
  by_cases hc : c.val < 0x80
  · rw [lexOne_other_ascii c rest hl hd hc] at h
    injection h with _ h2
    exact absurd h2 (by simp)
  · rw [lexOne_other c rest hl hd] at h
    have hm : (0x2B : Byte) ∈ encodeRune (decodeRune (c :: rest)).1 := by
      have h' : encodeRune (decodeRune (c :: rest)).1 = (0x2B : Byte) :: [0x2D, 0x2A, 0x2F] := h
      rw [h']; exact List.mem_cons_self _ _
    have := encodeRune_nonascii _ (decodeRune_nonascii c rest hc) _ hm
    revert this; decide

theorem nextToken_ne_MathOp (s : List Byte) : (nextToken s).1 ≠ MathOp := by
  induction s with
  | nil => rw [nextToken]; decide
  | cons c rest ih =>
    rw [nextToken]
    split_ifs
    · exact ih
    · exact lexOne_ne_MathOp c rest

theorem isIdent_head_constants :
    (∀ c t, Identifier = c :: t → isIdent c = true)
      ∧ (∀ c t, Number = c :: t → isIdent c = true) := by
  have e1 : Identifier = (0x49 : Byte) :: [0x44] := by decide
  have e2 : Number = (0x4E : Byte) :: [0x55, 0x4D] := by decide
  constructor
  · intro c t h
    rw [e1] at h
    injection h with h1 _
    rw [← h1]; decide
  · intro c t h
    rw [e2] at h
    injection h with h1 _
    rw [← h1]; decide

/-! ## The bounded stack and the error values -/

theorem readNumberObs_eq (lex : Lexer) :
    lex.readNumberObs
      = lex.readNumber.map (fun p => (p.1, p.2, (⟨true, (Atoi p.1).isSome⟩ : Obs))) := by
  rw [Lexer.readNumberObs, Lexer.readNumber, readNumberLoopOk_eq]
  cases h : readNumberLoop (lex.input.Len + 1) lex.input [] with
  | none => rfl
  | some p =>
    simp only [Option.map_some']
    by_cases ha : (Atoi p.1).isSome = true
    · rw [if_pos ha, if_pos ha]; simp only [Option.map_some', ha]
    · rw [if_neg ha, if_neg ha]
      have ha' : (Atoi p.1).isSome = false := by simpa using ha
      simp only [Option.map_some', ha']

theorem TokenizeStack_nil (frames : Nat) (lex : Lexer) (h : lex.input.unread = []) :
    Lexer.TokenizeStack (frames + 1) lex
      = some (Except.ok ([], ⟨⟨[], 0, 0⟩⟩, ⟨true, true⟩)) := by
  simp [Lexer.TokenizeStack, Buffer.ReadRune_nil lex.input h]

theorem TokenizeStack_sep (frames : Nat) (lex : Lexer) (c : Byte) (rest : List Byte)
    (h : lex.input.unread = c :: rest) (hc : isSep c = true) :
    Lexer.TokenizeStack (frames + 1) lex
      = Lexer.TokenizeStack frames ⟨⟨lex.input.buf, lex.input.off + 1, 1⟩⟩ := by
  rw [isSep_iff] at hc
  have hdec := decodeRune_ascii c rest (by omega)
  rw [Lexer.TokenizeStack, Buffer.ReadRune_cons lex.input c rest h, hdec]
  rcases hc with hc | hc
  · simp only [if_pos hc]
  · simp only [if_pos hc, ite_self]

theorem TokenizeStack_not_sep (frames fuel : Nat) (lex : Lexer) (c : Byte)
    (rest : List Byte) (h : lex.input.unread = c :: rest) (hc : isSep c = false) :
    Lexer.TokenizeStack (frames + 1) lex
      = (Lexer.TokenizeFuel (fuel + 1) lex).map (fun p =>
          Except.ok (p.1, p.2, (⟨true, !is_digit c.val || (Atoi p.1).isSome⟩ : Obs))) := by
  have hns : ¬ ((decodeRune (c :: rest)).1 = 0x20 ∨ (decodeRune (c :: rest)).1 = 0x3B) := by
    rw [decodeRune_fst_sep, hc]; simp
  have hdig : is_digit c.val = is_digit (decodeRune (c :: rest)).1 :=
    (decodeRune_isDig c rest).symm
  have hun := Buffer.UnreadRune_advance lex.input _ (decodeRune_size c rest).1
  rw [Lexer.TokenizeStack, Lexer.TokenizeFuel, Buffer.ReadRune_cons lex.input c rest h, hdig]
  simp only
  rw [if_neg (fun h => hns (Or.inl h)), if_neg (fun h => hns (Or.inr h)),
    if_neg (fun h => hns (Or.inl h)), if_neg (fun h => hns (Or.inr h)), hun]
  generalize (decodeRune (c :: rest)).1 = ch
  generalize (⟨lex.input.buf, lex.input.off + (decodeRune (c :: rest)).2,
    (decodeRune (c :: rest)).2⟩ : Buffer) = b1
  by_cases h1 : ch = 0x28
  · rw [if_pos h1, if_pos h1, h1]; rfl
  rw [if_neg h1, if_neg h1]
  by_cases h2 : ch = 0x29
  · rw [if_pos h2, if_pos h2, h2]; rfl
  rw [if_neg h2, if_neg h2]
  by_cases h3 : ch = 0x7B
  · rw [if_pos h3, if_pos h3, h3]; rfl
  rw [if_neg h3, if_neg h3]
  by_cases h4 : ch = 0x7D
  · rw [if_pos h4, if_pos h4, h4]; rfl
  rw [if_neg h4, if_neg h4]
  by_cases h5 : ch = 0x2B
  · rw [if_pos h5, if_pos h5, h5]; rfl
  rw [if_neg h5, if_neg h5]
  by_cases h6 : ch = 0x2D
  · rw [if_pos h6, if_pos h6, h6]; rfl
  rw [if_neg h6, if_neg h6]
  by_cases h7 : ch = 0x2A
  · rw [if_pos h7, if_pos h7, h7]; rfl
  rw [if_neg h7, if_neg h7]
  by_cases h8 : ch = 0x2F
  · rw [if_pos h8, if_pos h8, h8]; rfl
  rw [if_neg h8, if_neg h8]
  by_cases h9 : is_letter ch = true
  · have hnd : is_digit ch = false := by
      cases hd : is_digit ch with
      | false => rfl
      | true => rw [not_letter_of_digit ch hd] at h9; exact absurd h9 (by decide)
    rw [if_pos h9, if_pos h9, readIdentifierOk_eq, hnd]
    cases Lexer.readIdentifier _ <;> rfl
  rw [if_neg h9, if_neg h9]
  by_cases h10 : is_digit ch = true
  · rw [if_pos h10, if_pos h10, readNumberObs_eq, h10]
    cases Lexer.readNumber _ <;> rfl
  rw [if_neg h10, if_neg h10]
  have hnd : is_digit ch = false := by simpa using h10
  rw [hnd]
  rfl

theorem numberShape_lexOne (c : Byte) (rest : List Byte) (hs : isSep c = false) :
    numberShape (lexOne c rest).1 = is_digit c.val := by
  by_cases hd : is_digit c.val = true
  · rw [hd]; exact (lexOne_shape c rest hs).2.1 hd
  · have hd' : is_digit c.val = false := by simpa using hd
    rw [hd']
    cases hn : numberShape (lexOne c rest).1 with
    | false => rfl
    | true =>
      cases ht : (lexOne c rest).1 with
      | nil => exact absurd ht (lexOne_fst_ne_nil c rest)
      | cons c1 t =>
        rw [ht] at hn
        have h1 := numberShape_head c1 t hn
        rw [(lexOne_head c rest c1 t ht).2, hd'] at h1
        exact absurd h1 (by decide)

theorem Tokenize_sep (lex : Lexer) (c : Byte) (rest : List Byte)
    (h : lex.input.unread = c :: rest) (hc : isSep c = true) :
    lex.Tokenize = Lexer.Tokenize ⟨⟨lex.input.buf, lex.input.off + 1, 1⟩⟩ := by
  have hrest : (⟨lex.input.buf, lex.input.off + 1, 1⟩ : Buffer).unread = rest := by
    rw [Buffer.unread_advance, h]; rfl
  have hlen : lex.input.Len = rest.length + 1 := by rw [Buffer.Len_eq, h]; rfl
  rw [Lexer.Tokenize, hlen, TokenizeFuel_sep _ lex c rest h hc]
  exact TokenizeFuel_irrel _ _ _ (by rw [hrest]; omega)
    (by rw [Buffer.Len_eq]; omega)

/-- With room on the stack for more calls than separators stand before the next
token, the call returns what `Tokenize` computes, every `UnreadRune` succeeded,
and `Atoi` returned an error exactly when the token is a number it cannot parse. -/
theorem TokenizeStack_ok (frames : Nat) :
    ∀ lex : Lexer, (lex.input.unread.takeWhile isSep).length < frames →
      ∃ tok lex1 obs, Lexer.TokenizeStack frames lex = some (Except.ok (tok, lex1, obs))
        ∧ lex.Tokenize = some (tok, lex1)
        ∧ obs.unreadOk = true
        ∧ obs.atoiOk = (!numberShape tok || (Atoi tok).isSome) := by
  induction frames with
  | zero => intro lex h; omega
  | succ frames ih =>
    intro lex h
    cases hu : lex.input.unread with
    | nil =>
      refine ⟨[], ⟨⟨[], 0, 0⟩⟩, ⟨true, true⟩, TokenizeStack_nil frames lex hu, ?_, rfl, rfl⟩
      exact TokenizeFuel_nil _ lex hu
    | cons c rest =>
      rw [hu] at h
      by_cases hs : isSep c = true
      · rw [List.takeWhile_cons, if_pos hs] at h
        simp only [List.length_cons] at h
        have hrest : (⟨lex.input.buf, lex.input.off + 1, 1⟩ : Buffer).unread = rest := by
          rw [Buffer.unread_advance, hu]; rfl
        obtain ⟨tok, lex1, obs, e1, e2, e3, e4⟩ :=
          ih ⟨⟨lex.input.buf, lex.input.off + 1, 1⟩⟩ (by rw [hrest]; omega)
        refine ⟨tok, lex1, obs, ?_, ?_, e3, e4⟩
        · rw [TokenizeStack_sep frames lex c rest hu hs, e1]
        · rw [Tokenize_sep lex c rest hu hs, e2]
      · have hs' : isSep c = false := by simpa using hs
        obtain ⟨lex1, e1, _⟩ := Tokenize_spec lex
        have e1' : Lexer.TokenizeFuel (lex.input.Len + 1) lex
            = some ((nextToken lex.input.unread).1, lex1) := e1
        have htok : (nextToken lex.input.unread).1 = (lexOne c rest).1 := by
          rw [hu, nextToken, if_neg hs]
        refine ⟨_, lex1, ⟨true, !is_digit c.val || (Atoi (nextToken lex.input.unread).1).isSome⟩,
          ?_, e1, rfl, ?_⟩
        · rw [TokenizeStack_not_sep frames lex.input.Len lex c rest hu hs', e1']
          rfl
        · rw [htok, numberShape_lexOne c rest hs']

/-- With no more room on the stack than separators stand before the next token,
the call is the fatal error. -/
theorem TokenizeStack_overflow (frames : Nat) :
    ∀ lex : Lexer, frames ≤ (lex.input.unread.takeWhile isSep).length →
      Lexer.TokenizeStack frames lex = some (Except.error Fatal.stackOverflow) := by
  induction frames with
  | zero => intro lex _; rfl
  | succ frames ih =>
    intro lex h
    cases hu : lex.input.unread with
    | nil => rw [hu] at h; simp at h
    | cons c rest =>
      rw [hu, List.takeWhile_cons] at h
      by_cases hs : isSep c = true
      · rw [if_pos hs] at h
        simp only [List.length_cons] at h
        have hrest : (⟨lex.input.buf, lex.input.off + 1, 1⟩ : Buffer).unread = rest := by
          rw [Buffer.unread_advance, hu]; rfl
        rw [TokenizeStack_sep frames lex c rest hu hs]
        exact ih _ (by rw [hrest]; omega)
      · rw [if_neg hs] at h
        simp at h

theorem scanLoopStack_spec (fuel : Nat) :
    ∀ (frames : Nat) (lex : Lexer) (acc : List Token), lex.input.unread.length < fuel →
      (∀ r, List.IsSuffix r lex.input.unread → (r.takeWhile isSep).length < frames) →
      scanLoopStack fuel frames lex acc = some (Except.ok (acc ++ tokens lex.input.unread)) := by
  induction fuel with
  | zero => intro frames lex acc h; omega
  | succ fuel ih =>
    intro frames lex acc h hr
    obtain ⟨tok, lex1, obs, e1, e2, _, _⟩ :=
      TokenizeStack_ok frames lex (hr _ (List.suffix_refl _))
    obtain ⟨lex2, e3, e4⟩ := Tokenize_spec lex
    rw [e2] at e3
    have htok : tok = (nextToken lex.input.unread).1 := congrArg Prod.fst (Option.some.inj e3)
    have hlex : lex1 = lex2 := congrArg Prod.snd (Option.some.inj e3)
    rw [← hlex] at e4
    rw [scanLoopStack, e1, tokens_eq, ← htok]
    by_cases ht : tok = []
    · simp [ht]
    · have hne : lex.input.unread ≠ [] := by
        intro hs; apply ht; rw [htok, hs]; rfl
      have hlt := nextToken_snd_length_lt _ hne
      have hsuf := nextToken_snd_suffix lex.input.unread
      simp only [ht, if_false]
      rw [ih frames lex1 _ (by rw [e4]; omega)
        (fun r hr1 => hr r (List.IsSuffix.trans (by rw [e4] at hr1; exact hr1) hsuf)), e4]
      simp

theorem scanStack_ok (frames : Nat) (s : List Byte)
    (h : ∀ r, List.IsSuffix r s → (r.takeWhile isSep).length < frames) :
    scanStack frames s = some (Except.ok (tokens s)) := by
  have := scanLoopStack_spec (s.length + 1) frames (NewLexer s) [] (Nat.lt_succ_self _) h
  simpa [scanStack, NewLexer, Buffer.NewBufferString, Buffer.unread] using this

theorem scanStack_overflow (frames : Nat) (s : List Byte)
    (h : frames ≤ (s.takeWhile isSep).length) :
    scanStack frames s = some (Except.error Fatal.stackOverflow) := by
  rw [scanStack, scanLoopStack, TokenizeStack_overflow frames (NewLexer s) h]

theorem takeWhile_replicate_append (p : Byte → Bool) (a : Byte) (ha : p a = true) (n : Nat)
    (l : List Byte) : n ≤ ((List.replicate n a ++ l).takeWhile p).length := by
  induction n with
  | zero => exact Nat.zero_le _
  | succ n ih =>
    rw [List.replicate_succ, List.cons_append, List.takeWhile_cons, if_pos ha]
    simp only [List.length_cons]
    omega

theorem nextToken_of_dropWhile_nil (s : List Byte) (h : s.dropWhile isSep = []) :
    nextToken s = ([], []) := by
  induction s with
  | nil => rfl
  | cons a l ih =>
    rw [List.dropWhile_cons] at h
    by_cases ha : isSep a = true
    · rw [if_pos ha] at h
      rw [nextToken, if_pos ha]; exact ih h
    · rw [if_neg ha] at h; exact absurd h (by simp)

/-- A token equals a text that starts with a letter exactly when that text is the
identifier standing in the input after the leading separators. -/
theorem nextToken_eq_letter_text_iff (s : List Byte) (k0 : Byte) (kt : List Byte)
    (hk : is_letter k0.val = true) :
    (nextToken s).1 = k0 :: kt ↔ (s.dropWhile isSep).takeWhile isIdent = k0 :: kt := by
  cases hd : s.dropWhile isSep with
  | nil =>
    rw [nextToken_of_dropWhile_nil s hd]
    simp
  | cons c rest =>
    rw [nextToken_of_dropWhile s c rest hd]
    constructor
    · intro h
      have hl : is_letter c.val = true := by
        rw [← (lexOne_head c rest k0 kt h).1]; exact hk
      rw [lexOne_letter c rest hl] at h
      rw [List.takeWhile_cons, if_pos (isIdent_of_letter c hl)]
      exact h
    · intro h
      rw [List.takeWhile_cons] at h
      by_cases hc : isIdent c = true
      · rw [if_pos hc] at h
        have hck : c = k0 := by injection h
        have hl : is_letter c.val = true := by rw [hck]; exact hk
        rw [lexOne_letter c rest hl]
        exact h
      · rw [if_neg hc] at h; exact absurd h (by simp)

theorem length_takeWhile_le (p : Byte → Bool) (l : List Byte) :
    (l.takeWhile p).length ≤ l.length := by
  induction l with
  | nil => exact le_refl _
  | cons a l ih =>
    rw [List.takeWhile_cons]
    split
    · simp only [List.length_cons]; omega
    · simp

/-- An input shorter than the stack is deep has no run of separators that does
not fit. -/
theorem runs_fit_of_length_lt (frames : Nat) (s : List Byte) (h : s.length < frames) :
    ∀ r, List.IsSuffix r s → (r.takeWhile isSep).length < frames :=
  fun r hr => Nat.lt_of_le_of_lt
    (Nat.le_trans (length_takeWhile_le isSep r) (List.IsSuffix.length_le hr)) h
/-! ## The reference sample -/

/-- C1 as stated fails: the scan of `"$test_var + $varTest * 10;"` is not the
five tokens `$test_var`, `+`, `$varTest`, `*`, `10`. -/
theorem C1_sample_not_five_tokens :
    scan (str "$test_var + $varTest * 10;")
      ≠ some [str "$test_var", str "+", str "$varTest", str "*", str "10"] := by
  decide

/-- C1, amended: scanning the sample input of `main`,
`"$test_var + $varTest * 10;"`, gives exactly the seven tokens `$test`, `_`, `var`,
`+`, `$varTest`, `*`, `10`, in this order (the underscore is not an identifier
character and is a token of its own); the trailing `;` gives no token. -/
theorem C1_sample_tokens :
    main = some [str "$test", str "_", str "var", str "+", str "$varTest", str "*",
      str "10"] := by
  decide


/-! ## Reconstruction -/

/-- C2 as stated fails on an input that is not valid UTF-8: the scan of the one
byte `0xFF` discards nothing and emits U+FFFD as a token of three bytes, so the
record does not concatenate to the input. -/
theorem C2_ill_formed_byte_not_reproduced :
    scan [0xFF] = some [[0xEF, 0xBF, 0xBD]] ∧
    scanRecord [0xFF] = some [Piece.tok [0xEF, 0xBF, 0xBD]] ∧
    recordText [Piece.tok [0xEF, 0xBF, 0xBD]] ≠ [0xFF] := by
  decide

/-- C2, amended: for every input that is valid UTF-8, that is the encoding
`str w` of a sequence `w` of Unicode characters, a full scan has a record (every
discarded separator and every emitted token's text, in consumption order); the
tokens of the record are the tokens of the scan, every discarded character is
`' '` or `';'`, and the concatenation of the record is the input exactly. -/
theorem C2_reconstruction (w : String) :
    ∃ record, scanRecord (str w) = some record
      ∧ scan (str w) = some (record.filterMap Piece.token?)
      ∧ (∀ ch, Piece.sep ch ∈ record → ch = 0x20 ∨ ch = 0x3B)
      ∧ recordText record = str w := by
  obtain ⟨record, h1, h2, h3, h4⟩ := scanRecord_spec (str w)
  exact ⟨record, h1, by rw [scan_eq, h2], h3, by rw [h4, reencode_str]⟩

/-! ## Maximal munch -/

/-- C3: every `Tokenize` call returns, and if the token it returns starts with a
letter or `'$'` (an identifier), the next rune `ReadRune` would deliver, if there
is one, is no letter, `'$'` or digit; if the token starts with a digit (a number),
that next rune is no digit.  Scanning `"abc123"` gives the one token `abc123`. -/
theorem C3_maximal_munch :
    (∀ lex : Lexer, ∃ tok lex1, lex.Tokenize = some (tok, lex1)
      ∧ (∀ c t, tok = c :: t → is_letter c.val = true →
          ∀ ch n b, lex1.input.ReadRune = (some (ch, n), b) →
            is_letter ch = false ∧ is_digit ch = false)
      ∧ (∀ c t, tok = c :: t → is_digit c.val = true →
          ∀ ch n b, lex1.input.ReadRune = (some (ch, n), b) → is_digit ch = false))
    ∧ scan (str "abc123") = some [str "abc123"] := by
  refine ⟨fun lex => ?_, by decide⟩
  obtain ⟨lex1, e1, e2⟩ := Tokenize_spec lex
  refine ⟨_, lex1, e1, ?_, ?_⟩
  · intro c t ht hl ch n b hr
    cases hu : lex1.input.unread with
    | nil => rw [Buffer.ReadRune_nil _ hu] at hr; simp at hr
    | cons c2 r =>
      rw [Buffer.ReadRune_cons _ c2 r hu] at hr
      have hm := (nextToken_munch _ c t ht c2 r (by rw [← e2, hu])).1 hl
      have hid := decodeRune_isIdent c2 r
      rw [hm] at hid
      have hch : (decodeRune (c2 :: r)).1 = ch := by
        have h1 := congrArg Prod.fst hr
        have h2 := Option.some.inj h1
        exact congrArg Prod.fst h2
      rw [hch] at hid
      simpa only [Bool.or_eq_false_iff] using hid
  · intro c t ht hd ch n b hr
    cases hu : lex1.input.unread with
    | nil => rw [Buffer.ReadRune_nil _ hu] at hr; simp at hr
    | cons c2 r =>
      rw [Buffer.ReadRune_cons _ c2 r hu] at hr
      have hm := (nextToken_munch _ c t ht c2 r (by rw [← e2, hu])).2 hd
      have hid := decodeRune_isDig c2 r
      rw [hm] at hid
      have hch : (decodeRune (c2 :: r)).1 = ch := by
        have h1 := congrArg Prod.fst hr
        have h2 := Option.some.inj h1
        exact congrArg Prod.fst h2
      rw [hch] at hid
      exact hid

/-! ## Separators -/

/-- C4: every `Tokenize` call returns, and the token it returns contains neither
the byte `' '` nor the byte `';'`, whether as the whole token or inside it. -/
theorem C4_separators_never_emitted (lex : Lexer) :
    ∃ tok lex1, lex.Tokenize = some (tok, lex1)
      ∧ (0x20 : Byte) ∉ tok ∧ (0x3B : Byte) ∉ tok := by
  obtain ⟨lex1, e1, _⟩ := Tokenize_spec lex
  refine ⟨_, lex1, e1, ?_, ?_⟩
  · intro h
    have := nextToken_no_sep _ _ h
    revert this; decide
  · intro h
    have := nextToken_no_sep _ _ h
    revert this; decide

/-- C5: the tokens of a full scan do not change when every `';'` of the input is
replaced by `' '`, nor when every `' '` is replaced by `';'`; `"a;b"` and `"a b"`
both scan to the two tokens `a`, `b`. -/
theorem C5_separators_interchangeable (s : List Byte) :
    scan (s.map (fun c => if c = 0x3B then 0x20 else c)) = scan s
      ∧ scan (s.map (fun c => if c = 0x20 then 0x3B else c)) = scan s
      ∧ scan (str "a;b") = some [str "a", str "b"]
      ∧ scan (str "a b") = some [str "a", str "b"] := by
  refine ⟨?_, ?_, by decide, by decide⟩
  · rw [scan_eq, scan_eq, tokens_map _ sepMap_semicolon_to_space s.length s (le_refl _)]
  · rw [scan_eq, scan_eq, tokens_map _ sepMap_space_to_semicolon s.length s (le_refl _)]

/-! ## Structural and operator characters -/

/-- C6: for an input made only of the characters `( ) { } + - * /`, a full scan
gives one token per input character, in input order, each the one-character
string of that character. -/
theorem C6_one_token_per_character (s : List Byte) (h : ∀ c ∈ s, isStructOrOp c = true) :
    scan s = some (s.map (fun c => [c])) := by
  rw [scan_eq, tokens_structOrOp s h]

set_option maxRecDepth 4000 in
/-- C6 at `"(){}+-*/"`: exactly the eight tokens `(`, `)`, `{`, `}`, `+`, `-`, `*`,
`/`. -/
theorem C6_witness :
    (∀ c ∈ str "()\x7b\x7d+-*/", isStructOrOp c = true)
      ∧ scan (str "()\x7b\x7d+-*/")
        = some [str "(", str ")", str "\x7b", str "\x7d", str "+", str "-", str "*", str "/"] :=
  ⟨by decide, C6_one_token_per_character (str "()\x7b\x7d+-*/") (by decide)⟩

/-! ## The boundary between digits and letters -/

/-- C7: for a non-empty digit string `d` and a string `w = c0 :: t` that starts
with a letter or `'$'` and goes on with letters, digits or `'$'`, a full scan of
`d ++ w` gives the two tokens `d`, `w`, and a full scan of `w ++ d` gives the one
token `w ++ d`. -/
theorem C7_digit_letter_boundary (d : List Byte) (c0 : Byte) (t : List Byte)
    (hne : d ≠ []) (hd : ∀ c ∈ d, is_digit c.val = true) (hl : is_letter c0.val = true)
    (ht : ∀ c ∈ t, is_letter c.val = true ∨ is_digit c.val = true) :
    scan (d ++ c0 :: t) = some [d, c0 :: t]
      ∧ scan ((c0 :: t) ++ d) = some [(c0 :: t) ++ d] := by
  have ht' : ∀ c ∈ t, isIdent c = true := by
    intro c hc
    rcases ht c hc with h | h
    · exact isIdent_of_letter c h
    · exact isIdent_of_digit c h
  constructor
  · cases d with
    | nil => exact absurd rfl hne
    | cons d0 dt =>
      have hnd : isDig c0 = false := by
        have := not_letter_of_digit c0.val
        cases h : isDig c0 with
        | false => rfl
        | true => rw [this h] at hl; exact absurd hl (by decide)
      rw [scan_eq, List.cons_append,
        tokens_digit_run d0 dt (c0 :: t) (hd d0 (List.mem_cons_self d0 dt))
          (fun c hc => hd c (List.mem_cons_of_mem d0 hc))
          (fun c r1 e => by injection e with e1 _; rw [← e1]; exact hnd),
        tokens_ident_run c0 t hl ht']
  · rw [scan_eq, List.cons_append, tokens_ident_run c0 (t ++ d) hl]
    intro c hc
    rcases List.mem_append.1 hc with h | h
    · exact ht' c h
    · exact isIdent_of_digit c (hd c h)

set_option maxRecDepth 4000 in
/-- C7 at `d = "10"`, `w = "abc"`: `"10abc"` scans to `10`, `abc`, and `"abc10"` to
the one token `abc10`. -/
theorem C7_witness :
    scan (str "10abc") = some [str "10", str "abc"]
      ∧ scan (str "abc10") = some [str "abc10"] :=
  C7_digit_letter_boundary (str "10") 0x61 (str "bc") (by decide) (by decide) (by decide)
    (by decide)

/-! ## Termination -/

/-- C8 as stated fails: `Tokenize` calls itself once for every separator it
skips, and the goroutine stack (1,000,000,000 bytes by default, so fewer than
that many frames) has no room for that many nested calls.  On an input of one
thousand million spaces before `a`, the call does not return a token: it ends in
the fatal error, and so does the full scan. -/
theorem C8_stack_overflow_on_long_separator_run :
    Lexer.TokenizeStack 1000000000 (NewLexer (List.replicate 1000000000 0x20 ++ str "a"))
        = some (Except.error Fatal.stackOverflow)
      ∧ scanStack 1000000000 (List.replicate 1000000000 0x20 ++ str "a")
        = some (Except.error Fatal.stackOverflow) :=
  ⟨TokenizeStack_overflow _ _ (takeWhile_replicate_append isSep 0x20 rfl 1000000000 _),
    scanStack_overflow _ _ (takeWhile_replicate_append isSep 0x20 rfl 1000000000 _)⟩

/-- C8, amended: the loops of `readIdentifier` and `readNumber` end on every
state; every `Tokenize` call ends, on a stack with room for `frames` nested calls
either by returning or in the fatal error: it returns (what `Tokenize` computes)
when fewer than `frames` separators stand before the next token, and it is the
fatal error otherwise.  For an input in which every run of separators is shorter
than `frames`, the full scan returns its token list, so the empty token is
reached after finitely many calls; the tokens are non-empty and their number is
at most the number of runes of the input, which is at most its length in bytes.
The step budgets of the model never run out: any larger budget gives `Tokenize`
and the loop of `main` the same result. -/
theorem C8_termination_within_stack :
    (∀ lex : Lexer, (∃ r, lex.readIdentifier = some r) ∧ (∃ r, lex.readNumber = some r))
    ∧ (∀ (frames : Nat) (lex : Lexer), ∃ o, lex.TokenizeStack frames = some o)
    ∧ (∀ (frames : Nat) (lex : Lexer),
        (lex.input.unread.takeWhile isSep).length < frames →
        ∃ tok lex1 obs, lex.TokenizeStack frames = some (Except.ok (tok, lex1, obs))
          ∧ lex.Tokenize = some (tok, lex1))
    ∧ (∀ (frames : Nat) (lex : Lexer),
        frames ≤ (lex.input.unread.takeWhile isSep).length →
        lex.TokenizeStack frames = some (Except.error Fatal.stackOverflow))
    ∧ (∀ (frames : Nat) (s : List Byte),
        (∀ r, List.IsSuffix r s → (r.takeWhile isSep).length < frames) →
        ∃ toks, scanStack frames s = some (Except.ok toks) ∧ scan s = some toks
          ∧ (∀ t ∈ toks, t ≠ [])
          ∧ toks.length ≤ RuneCount s ∧ RuneCount s ≤ s.length)
    ∧ (∀ (lex : Lexer) (fuel : Nat), lex.input.Len < fuel →
        Lexer.TokenizeFuel fuel lex = lex.Tokenize)
    ∧ (∀ (s : List Byte) (fuel : Nat), s.length < fuel →
        scanLoop fuel (NewLexer s) [] = scan s) := by
  refine ⟨?_, ?_, ?_, ?_, ?_, ?_, ?_⟩
  · intro lex
    obtain ⟨l1, e1, _⟩ := Lexer.readIdentifier_spec lex
    obtain ⟨l2, e2, _⟩ := Lexer.readNumber_spec lex
    exact ⟨⟨_, e1⟩, ⟨_, e2⟩⟩
  · intro frames lex
    by_cases h : (lex.input.unread.takeWhile isSep).length < frames
    · obtain ⟨tok, lex1, obs, e, _⟩ := TokenizeStack_ok frames lex h
      exact ⟨_, e⟩
    · exact ⟨_, TokenizeStack_overflow frames lex (by omega)⟩
  · intro frames lex h
    obtain ⟨tok, lex1, obs, e1, e2, _⟩ := TokenizeStack_ok frames lex h
    exact ⟨tok, lex1, obs, e1, e2⟩
  · exact fun frames lex h => TokenizeStack_overflow frames lex h
  · intro frames s h
    obtain ⟨h1, h2⟩ := tokens_facts s.length s (le_refl _)
    exact ⟨tokens s, scanStack_ok frames s h, scan_eq s, h1, h2, RuneCount_le_length s⟩
  · intro lex fuel hf
    rw [Buffer.Len_eq] at hf
    exact TokenizeFuel_irrel fuel (lex.input.Len + 1) lex hf (by rw [Buffer.Len_eq]; omega)
  · intro s fuel hf
    have := scanLoop_spec fuel (NewLexer s) [] (by
      simpa [NewLexer, Buffer.NewBufferString, Buffer.unread] using hf)
    rw [scan_eq]
    simpa [NewLexer, Buffer.NewBufferString, Buffer.unread] using this

set_option maxRecDepth 4000 in
/-- C8 at the input `"a;  b"` on a stack with room for sixteen nested calls. -/
theorem C8_witness :
    ∃ toks, scanStack 16 (str "a;  b") = some (Except.ok toks)
      ∧ scan (str "a;  b") = some toks
      ∧ (∀ t ∈ toks, t ≠ [])
      ∧ toks.length ≤ RuneCount (str "a;  b") ∧ RuneCount (str "a;  b") ≤ (str "a;  b").length :=
  C8_termination_within_stack.2.2.2.2.1 16 (str "a;  b")
    (runs_fit_of_length_lt 16 (str "a;  b") (by decide))

/-! ## The end of the input -/

/-- C9: every `Tokenize` call returns, and if it returns the empty token then
nothing is left unread, the next call on the lexer so left returns the empty
token again and leaves the lexer as it is, and so does every later call: after
any number of further calls the lexer is unchanged. -/
theorem C9_idempotent_at_end (lex : Lexer) :
    ∃ tok lex1, lex.Tokenize = some (tok, lex1)
      ∧ (tok = [] →
          lex1.input.unread = []
            ∧ lex1.Tokenize = some ([], lex1)
            ∧ ∀ n, Lexer.afterCalls n lex1 = some lex1) := by
  obtain ⟨lex1, e1, _⟩ := Tokenize_spec lex
  refine ⟨_, lex1, e1, ?_⟩
  intro ht
  rw [ht] at e1
  have hl := TokenizeFuel_empty (lex.input.Len + 1) lex lex1
    (by rw [Buffer.Len_eq]; omega) e1
  rw [hl]
  exact ⟨rfl, Tokenize_exhausted, afterCalls_exhausted⟩

/-- C10: every `Tokenize` call returns, and it returns the empty token exactly
when every unread byte is `' '` or `';'` (in particular when nothing is unread);
when it does, nothing is left unread after the call, so the empty token that ends
the loop of `main` never cuts the token stream short. -/
theorem C10_empty_token_iff_nothing_left (lex : Lexer) :
    ∃ tok lex1, lex.Tokenize = some (tok, lex1)
      ∧ (tok = [] ↔ ∀ c ∈ lex.input.unread, c = 0x20 ∨ c = 0x3B)
      ∧ (tok = [] → lex1.input.unread = []) := by
  obtain ⟨lex1, e1, e2⟩ := Tokenize_spec lex
  refine ⟨_, lex1, e1, ?_, ?_⟩
  · rw [nextToken_fst_eq_nil_iff]
    constructor
    · intro h c hc; exact (isSep_iff_eq c).1 (h c hc)
    · intro h c hc; exact (isSep_iff_eq c).2 (h c hc)
  · intro ht
    rw [e2]; exact nextToken_snd_of_fst_nil _ ht

/-! ## The fallback token -/

/-- C11: let `c` be a Unicode character that is not `' '`, `';'`, one of
`( ) { } + - * /`, a letter, `'$'` or a digit.  When the unread input starts with
(the UTF-8 encoding of) `c`, `Tokenize` returns the token whose text is exactly
that encoding and leaves unread exactly what followed `c`. -/
theorem C11_fallback_token (c : Char) (rest : List Byte) (lex : Lexer)
    (hu : lex.input.unread = encodeRune c.toNat ++ rest)
    (h1 : c.toNat ∉ [0x20, 0x3B, 0x28, 0x29, 0x7B, 0x7D, 0x2B, 0x2D, 0x2A, 0x2F])
    (h2 : is_letter c.toNat = false) (h3 : is_digit c.toNat = false) :
    ∃ lex1, lex.Tokenize = some (encodeRune c.toNat, lex1) ∧ lex1.input.unread = rest := by
  obtain ⟨lex1, e1, e2⟩ := Tokenize_spec lex
  have hs : c.toNat ≠ 0x20 ∧ c.toNat ≠ 0x3B := by
    simp only [List.mem_cons, List.mem_singleton, List.not_mem_nil, or_false, not_or] at h1
    exact ⟨h1.1, h1.2.1⟩
  rw [hu, nextToken_rune c.toNat rest (validRune_char c) hs h2 h3] at e1 e2
  exact ⟨lex1, e1, e2⟩

set_option maxRecDepth 4000 in
/-- C11 at `'.'` before `"x"` and at the non-ASCII `'é'` before `"=1"`. -/
theorem C11_witness :
    (∃ lex1, (NewLexer (str ".x")).Tokenize = some (str ".", lex1)
        ∧ lex1.input.unread = str "x")
      ∧ (∃ lex1, (NewLexer (str "é=1")).Tokenize = some (str "é", lex1)
        ∧ lex1.input.unread = str "=1") :=
  ⟨C11_fallback_token '.' (str "x") (NewLexer (str ".x")) (by decide) (by decide) (by decide)
      (by decide),
    C11_fallback_token 'é' (str "=1") (NewLexer (str "é=1")) (by decide) (by decide)
      (by decide) (by decide)⟩

/-! ## No failure -/

set_option maxRecDepth 8000 in
/-- C12 as stated fails twice.  On the thirty digits below `strconv.Atoi` returns
an error and `readNumber` takes the path after the check `err == nil`: the call
returns the token, with `atoiOk = false`.  And on one thousand million `';'`
before `1` the self-recursion of `Tokenize` finds no room on the goroutine stack: the call
returns no token but ends in the fatal error. -/
theorem C12_error_branch_and_stack_overflow :
    Atoi (str "123456789012345678901234567890") = none
      ∧ Lexer.TokenizeStack 16 (NewLexer (str "123456789012345678901234567890"))
        = some (Except.ok (str "123456789012345678901234567890", ⟨⟨[], 0, 0⟩⟩, ⟨true, false⟩))
      ∧ Lexer.TokenizeStack 1000000000 (NewLexer (List.replicate 1000000000 0x3B ++ str "1"))
        = some (Except.error Fatal.stackOverflow) :=
  ⟨by decide, rfl,
    TokenizeStack_overflow _ _ (takeWhile_replicate_append isSep 0x3B rfl 1000000000 _)⟩

/-- C12, amended: on a stack with room for `frames` nested calls, a `Tokenize`
call on a state with fewer than `frames` separators before the next token
returns a token and the next state (those `Tokenize` computes) without a fatal
error; every `UnreadRune` performed during the call returns a nil error, since
each acts on the buffer a successful `ReadRune` has just returned; the one error
value met is that of `strconv.Atoi`, exactly when the token is a number that
`Atoi` cannot parse, and the token is returned all the same.  The result depends
on the unread input alone, and an input whose runs of separators are all shorter
than `frames` has a full scan. -/
theorem C12_no_failure_within_stack :
    (∀ (frames : Nat) (lex : Lexer),
        (lex.input.unread.takeWhile isSep).length < frames →
        ∃ tok lex1 obs, lex.TokenizeStack frames = some (Except.ok (tok, lex1, obs))
          ∧ lex.Tokenize = some (tok, lex1)
          ∧ obs.unreadOk = true
          ∧ obs.atoiOk = (!numberShape tok || (Atoi tok).isSome))
    ∧ (∀ (b : Buffer) (r : Nat × Nat) (b1 : Buffer), b.ReadRune = (some r, b1) →
        b1.UnreadRune = (true, ⟨b.buf, b.off, 0⟩))
    ∧ (∀ (frames : Nat) (lex lex2 : Lexer), lex.input.unread = lex2.input.unread →
        (lex.input.unread.takeWhile isSep).length < frames →
        ∃ tok lex1 lex3 obs, lex.TokenizeStack frames = some (Except.ok (tok, lex1, obs))
          ∧ lex2.TokenizeStack frames = some (Except.ok (tok, lex3, obs))
          ∧ lex1.input.unread = lex3.input.unread)
    ∧ (∀ (frames : Nat) (s : List Byte),
        (∀ r, List.IsSuffix r s → (r.takeWhile isSep).length < frames) →
        ∃ toks, scanStack frames s = some (Except.ok toks) ∧ scan s = some toks) := by
  refine ⟨fun frames lex h => TokenizeStack_ok frames lex h,
    Buffer.UnreadRune_after_ReadRune, ?_, ?_⟩
  · intro frames lex lex2 hu h
    obtain ⟨tok, lex1, obs, e1, e2, e3, e4⟩ := TokenizeStack_ok frames lex h
    obtain ⟨tok2, lex3, obs2, f1, f2, f3, f4⟩ := TokenizeStack_ok frames lex2 (by rw [← hu]; exact h)
    obtain ⟨l1, g1, g2⟩ := Tokenize_spec lex
    obtain ⟨l2, k1, k2⟩ := Tokenize_spec lex2
    rw [e2] at g1
    rw [f2, ← hu] at k1
    rw [← hu] at k2
    have t1 : tok = (nextToken lex.input.unread).1 := congrArg Prod.fst (Option.some.inj g1)
    have t2 : tok2 = (nextToken lex.input.unread).1 := congrArg Prod.fst (Option.some.inj k1)
    have s1 : lex1 = l1 := congrArg Prod.snd (Option.some.inj g1)
    have s2 : lex3 = l2 := congrArg Prod.snd (Option.some.inj k1)
    have ht : tok2 = tok := by rw [t1, t2]
    have ho : obs2 = obs := by
      cases obs with
      | mk a b =>
        cases obs2 with
        | mk a2 b2 =>
          simp only at e3 e4 f3 f4
          rw [e3, e4, f3, f4, ht]
    rw [ht, ho] at f1
    exact ⟨tok, lex1, lex3, obs, e1, f1, by rw [s1, s2, g2, k2]⟩
  · intro frames s h
    exact ⟨tokens s, scanStack_ok frames s h, scan_eq s⟩

set_option maxRecDepth 4000 in
/-- C12 at the input `" 12;"` on a stack with room for sixteen nested calls. -/
theorem C12_witness :
    ∃ tok lex1 obs, (NewLexer (str " 12;")).TokenizeStack 16 = some (Except.ok (tok, lex1, obs))
      ∧ (NewLexer (str " 12;")).Tokenize = some (tok, lex1)
      ∧ obs.unreadOk = true
      ∧ obs.atoiOk = (!numberShape tok || (Atoi tok).isSome) :=
  C12_no_failure_within_stack.1 16 (NewLexer (str " 12;")) (by decide)

/-! ## The shape of a token -/

/-- C13: every `Tokenize` call returns, and a non-empty token it returns has
exactly one of three shapes: an identifier (a letter or `'$'` first, then only
letters, digits and `'$'`), a number (one or more digits, nothing else), or the
encoding of exactly one character that is no letter, `'$'`, digit, `' '` or
`';'`. -/
theorem C13_token_shape (lex : Lexer) :
    ∃ tok lex1, lex.Tokenize = some (tok, lex1)
      ∧ (tok ≠ [] →
          (identifierShape tok = true ∨ numberShape tok = true ∨ singleShape tok = true)
            ∧ ¬ (identifierShape tok = true ∧ numberShape tok = true)
            ∧ ¬ (identifierShape tok = true ∧ singleShape tok = true)
            ∧ ¬ (numberShape tok = true ∧ singleShape tok = true)) := by
  obtain ⟨lex1, e1, _⟩ := Tokenize_spec lex
  exact ⟨_, lex1, e1, fun h => ⟨nextToken_shape _ h, shapes_exclusive _⟩⟩

/-! ## End of input in the middle of a run -/

/-- C14: for a string `w = c0 :: t` that starts with a letter or `'$'` and
contains only letters, digits and `'$'`, the first `Tokenize` call returns `w`,
the next call returns the empty token, and the full scan of `w` is the one token
`w`; the same holds for every non-empty string `d` of digits. -/
theorem C14_run_ends_at_end_of_input :
    (∀ (c0 : Byte) (t : List Byte), is_letter c0.val = true →
      (∀ c ∈ t, is_letter c.val = true ∨ is_digit c.val = true) →
        scan (c0 :: t) = some [c0 :: t]
          ∧ ∃ lex1 lex2, (NewLexer (c0 :: t)).Tokenize = some (c0 :: t, lex1)
              ∧ lex1.Tokenize = some ([], lex2))
    ∧ (∀ d : List Byte, d ≠ [] → (∀ c ∈ d, is_digit c.val = true) →
        scan d = some [d]
          ∧ ∃ lex1 lex2, (NewLexer d).Tokenize = some (d, lex1)
              ∧ lex1.Tokenize = some ([], lex2)) := by
  constructor
  · intro c0 t hl ht
    have ht' : ∀ c ∈ t, isIdent c = true := by
      intro c hc
      rcases ht c hc with h | h
      · exact isIdent_of_letter c h
      · exact isIdent_of_digit c h
    exact ⟨by rw [scan_eq, tokens_ident_run c0 t hl ht'],
      Tokenize_whole_input _ _ (nextToken_ident_run c0 t hl ht')⟩
  · intro d hne hd
    cases d with
    | nil => exact absurd rfl hne
    | cons d0 dt =>
      have h0 := hd d0 (List.mem_cons_self d0 dt)
      have hdt : ∀ c ∈ dt, isDig c = true := fun c hc => hd c (List.mem_cons_of_mem d0 hc)
      refine ⟨?_, Tokenize_whole_input _ _ (nextToken_digit_all d0 dt h0 hdt)⟩
      have := tokens_digit_run d0 dt [] h0 hdt (fun c r1 e => by simp at e)
      rw [List.append_nil, tokens_nil] at this
      rw [scan_eq, this]

set_option maxRecDepth 4000 in
/-- C14 at the identifier `"$x1"` and at the number `"2024"`. -/
theorem C14_witness :
    scan (str "$x1") = some [str "$x1"] ∧ scan (str "2024") = some [str "2024"] :=
  ⟨(C14_run_ends_at_end_of_input.1 0x24 (str "x1") (by decide) (by decide)).1,
    (C14_run_ends_at_end_of_input.2 (str "2024") (by decide) (by decide)).1⟩

/-! ## The integer-parse check -/

set_option maxRecDepth 8000 in
/-- C15: on every lexer state `readNumber` returns exactly the maximal leading
run of digits of the unread input, as text, and leaves the rest unread; the
outcome of `strconv.Atoi` plays no part.  A run of thirty digits, on which `Atoi`
fails (it overflows `int`), is returned whole; a run on which `Atoi` succeeds is
returned with its leading zeros. -/
theorem C15_parse_check_is_no_op :
    (∀ lex : Lexer, ∃ lex1,
        lex.readNumber = some (lex.input.unread.takeWhile isDig, lex1)
          ∧ lex1.input.unread = lex.input.unread.dropWhile isDig)
    ∧ Atoi (str "123456789012345678901234567890") = none
    ∧ ((NewLexer (str "123456789012345678901234567890+1")).readNumber).map Prod.fst
        = some (str "123456789012345678901234567890")
    ∧ Atoi (str "007") = some 7
    ∧ ((NewLexer (str "007abc")).readNumber).map Prod.fst = some (str "007") := by
  refine ⟨Lexer.readNumber_spec, by decide, by decide, by decide, by decide⟩

/-! ## The cursor -/

/-- C16: every `Tokenize` call returns, the input left unread after the call is
a suffix of the input unread before it, and it is strictly shorter whenever the
input unread before the call was not empty. -/
theorem C16_cursor_moves_forward (lex : Lexer) :
    ∃ tok lex1, lex.Tokenize = some (tok, lex1)
      ∧ List.IsSuffix lex1.input.unread lex.input.unread
      ∧ (lex.input.unread ≠ [] → lex1.input.unread.length < lex.input.unread.length) := by
  obtain ⟨lex1, e1, e2⟩ := Tokenize_spec lex
  refine ⟨_, lex1, e1, ?_, ?_⟩
  · rw [e2]; exact nextToken_snd_suffix _
  · intro h; rw [e2]; exact nextToken_snd_length_lt _ h

/-! ## The underscore -/

/-- C17: for non-empty strings `u` and `v` of letters (`a`-`z`, `A`-`Z`; also
`'$'`), a full scan of `u ++ "_" ++ v` gives exactly the three tokens `u`, `_`,
`v`: the underscore is no identifier character. -/
theorem C17_underscore_splits_identifier (u v : List Byte) (hu : u ≠ []) (hv : v ≠ [])
    (hul : ∀ c ∈ u, is_letter c.val = true) (hvl : ∀ c ∈ v, is_letter c.val = true) :
    scan (u ++ str "_" ++ v) = some [u, str "_", v] := by
  cases u with
  | nil => exact absurd rfl hu
  | cons u0 ut =>
    cases v with
    | nil => exact absurd rfl hv
    | cons v0 vt =>
      have e : str "_" = [0x5F] := by decide
      rw [scan_eq, e, List.append_assoc, List.cons_append, List.singleton_append,
        tokens_underscore u0 ut v0 vt (hul u0 (List.mem_cons_self u0 ut))
          (fun c hc => isIdent_of_letter c (hul c (List.mem_cons_of_mem u0 hc)))
          (hvl v0 (List.mem_cons_self v0 vt))
          (fun c hc => isIdent_of_letter c (hvl c (List.mem_cons_of_mem v0 hc)))]

set_option maxRecDepth 4000 in
/-- C17 at `"test_var"`: the three tokens `test`, `_`, `var`. -/
theorem C17_witness : scan (str "test_var") = some [str "test", str "_", str "var"] :=
  C17_underscore_splits_identifier (str "test") (str "var") (by decide) (by decide)
    (by decide) (by decide)

/-! ## Scanning across a separator -/

/-- C18: for all inputs `s1`, `s2` and every non-empty string `p` of `' '` and
`';'`, the tokens of a full scan of `s1 ++ p ++ s2` are the tokens of a full scan
of `s1` followed by the tokens of a full scan of `s2`. -/
theorem C18_compositional_across_separator (s1 s2 p : List Byte) (hp : p ≠ [])
    (hsep : ∀ c ∈ p, c = 0x20 ∨ c = 0x3B) :
    ∃ t1 t2, scan s1 = some t1 ∧ scan s2 = some t2
      ∧ scan (s1 ++ p ++ s2) = some (t1 ++ t2) := by
  refine ⟨tokens s1, tokens s2, scan_eq s1, scan_eq s2, ?_⟩
  cases p with
  | nil => exact absurd rfl hp
  | cons a p1 =>
    have ha : isSep a = true := (isSep_iff_eq a).2 (hsep a (List.mem_cons_self a p1))
    have hp1 : ∀ c ∈ p1, isSep c = true :=
      fun c hc => (isSep_iff_eq c).2 (hsep c (List.mem_cons_of_mem a hc))
    rw [scan_eq, List.append_assoc, List.cons_append,
      tokens_append_sep a (p1 ++ s2) ha s1.length s1 (le_refl _),
      tokens_seps_append p1 s2 hp1]

set_option maxRecDepth 4000 in
/-- C18 at `s1 = "a+1"`, `p = "; "`, `s2 = "b"`, and with an empty `s1` (leading
separators) and an empty `s2` (trailing separators). -/
theorem C18_witness :
    (∃ t1 t2, scan (str "a+1") = some t1 ∧ scan (str "b") = some t2
        ∧ scan (str "a+1" ++ str "; " ++ str "b") = some (t1 ++ t2))
      ∧ (∃ t1 t2, scan [] = some t1 ∧ scan (str "b") = some t2
        ∧ scan ([] ++ str ";;" ++ str "b") = some (t1 ++ t2))
      ∧ (∃ t1 t2, scan (str "b") = some t1 ∧ scan [] = some t2
        ∧ scan (str "b" ++ str "  " ++ []) = some (t1 ++ t2)) :=
  ⟨C18_compositional_across_separator (str "a+1") (str "b") (str "; ") (by decide)
      (by decide),
    C18_compositional_across_separator [] (str "b") (str ";;") (by decide) (by decide),
    C18_compositional_across_separator (str "b") [] (str "  ") (by decide) (by decide)⟩

/-! ## Tokens carry text, not kind -/

/-- C19: every `Tokenize` call returns a token that is never the constant
`MathOp` (`"+-*/"`).  The token is the constant `Identifier` (`"ID"`), or `Number`
(`"NUM"`), exactly when that very text is the identifier standing in the input
after the leading separators.  When the first unread character after the leading
separators is one of `+ - * /`, the token is the one-character string of that
character; when it is a letter or `'$'`, the token is the identifier text that
starts there (the maximal run of letters, digits and `'$'`); when it is a digit,
the token is the maximal run of digits that starts there; in each case exactly
that text is consumed.  Conversely a token that starts with a letter, `'$'` or a
digit is text of the input: the input is the discarded separators, the token and
the rest. -/
theorem C19_tokens_carry_text (lex : Lexer) :
    ∃ tok lex1, lex.Tokenize = some (tok, lex1)
      ∧ tok ≠ MathOp
      ∧ (tok = Identifier ↔
          (lex.input.unread.dropWhile isSep).takeWhile isIdent = Identifier)
      ∧ (tok = Number ↔ (lex.input.unread.dropWhile isSep).takeWhile isIdent = Number)
      ∧ (∀ c rest, lex.input.unread.dropWhile isSep = c :: rest →
          c ∈ ([0x2B, 0x2D, 0x2A, 0x2F] : List Byte) →
            tok = [c] ∧ lex1.input.unread = rest)
      ∧ (∀ c rest, lex.input.unread.dropWhile isSep = c :: rest → is_letter c.val = true →
          tok = c :: rest.takeWhile isIdent ∧ lex1.input.unread = rest.dropWhile isIdent)
      ∧ (∀ c rest, lex.input.unread.dropWhile isSep = c :: rest → is_digit c.val = true →
          tok = c :: rest.takeWhile isDig ∧ lex1.input.unread = rest.dropWhile isDig)
      ∧ (∀ c t, tok = c :: t → (is_letter c.val = true ∨ is_digit c.val = true) →
          lex.input.unread = lex.input.unread.takeWhile isSep ++ tok ++ lex1.input.unread) := by
  obtain ⟨lex1, e1, e2⟩ := Tokenize_spec lex
  have eI : Identifier = (0x49 : Byte) :: [0x44] := by decide
  have eN : Number = (0x4E : Byte) :: [0x55, 0x4D] := by decide
  refine ⟨_, lex1, e1, nextToken_ne_MathOp _, ?_, ?_, ?_, ?_, ?_, ?_⟩
  · rw [eI]; exact nextToken_eq_letter_text_iff _ _ _ (by decide)
  · rw [eN]; exact nextToken_eq_letter_text_iff _ _ _ (by decide)
  · intro c rest hd hc
    have hop : isStructOrOp c = true := by
      simp only [List.mem_cons, List.mem_singleton, List.not_mem_nil, or_false] at hc
      rcases hc with rfl | rfl | rfl | rfl <;> decide
    obtain ⟨_, k2, k3, k4⟩ := isStructOrOp_class c hop
    rw [e2, nextToken_of_dropWhile _ c rest hd, lexOne_other_ascii c rest k2 k3 k4]
    exact ⟨rfl, rfl⟩
  · intro c rest hd hl
    rw [e2, nextToken_of_dropWhile _ c rest hd, lexOne_letter c rest hl]
    exact ⟨rfl, rfl⟩
  · intro c rest hd hdig
    rw [e2, nextToken_of_dropWhile _ c rest hd, lexOne_digit c rest hdig]
    exact ⟨rfl, rfl⟩
  · intro c t ht hc
    have hid : isIdent c = true := by
      simp only [isIdent, Bool.or_eq_true]; exact hc
    have := nextToken_text _ c t ht hid
    rw [← e2] at this
    exact this
end Flow
